import Mathlib

/-!
# Verification of the merge-insertion (Ford–Johnson) sort library

Shallow embedding of `src/merge-insertion.ts`.  The repository contains two
revisions of the module; both are embedded here:

* the current revision (`mergeInsertionSort` working on a main chain of
  `SortingPair` slots, `_binInsertIdx`, `_makeGroups`, `_groupSizes`,
  `mergeInsertionMaxComparisons`), and
* the earlier revision (`_mergeInsertionSort` with `_binInsert` and
  `_cachedComparator`, whose exported entry point wraps the caller's
  comparator in a comparison cache).

The asynchronous comparator is modelled as a deterministic state machine
`CompM`: a comparator call is a state transition returning a `Bool`
(`true` models the JavaScript result `1`, "the second item is ranked
higher"; `false` models `0`).  A run of the sort threads the state through
every comparator invocation, so instantiating the state with a call log
makes the sequence of comparator invocations observable, and instantiating
it with a cache models `_cachedComparator`.  Errors thrown by the
JavaScript code are modelled with `Except`.  Loops are modelled by
fuel-indexed structural recursion with internally computed fuel bounds
that provably suffice (the out-of-fuel branches are unreachable), keeping
every definition kernel-computable.
-/

namespace MergeInsertion

/-- The error conditions of the module: `duplicateItems` models the
`'array may not contain duplicate items'` error, `itemAlreadyInserted`
the `'item is already in target array'` error of the binary insertion,
`rightIndexNegative` the `'right index may not be negative'` error of the
earlier revision's `_binInsert`, and `invalidArgument` the
`'must specify zero or more items'` error of
`mergeInsertionMaxComparisons`.  `internalError` models the propagation
of `undefined` through a failed non-null assertion (`!`), and `outOfFuel`
is the fuel-exhaustion branch of the embedding; both are unreachable in
the runs the theorems below are about. -/
inductive SortError where
  | duplicateItems
  | itemAlreadyInserted
  | rightIndexNegative
  | invalidArgument
  | internalError
  | outOfFuel
deriving DecidableEq, Repr

/-- The comparator capability: `query a b s` is one invocation of the
comparator on the tuple `[a, b]` in state `s`; it returns the comparison
result (`true` ↔ the JavaScript comparator resolves to `1`, i.e. the
second item is ranked higher) together with the successor state. -/
structure CompM (α : Type u) (σ : Type v) where
  query : α → α → σ → Bool × σ

/-- The plain logging comparator: answers according to the pure function
`cmp` and records every invocation, modelling a caller-supplied
comparator whose invocations we observe. -/
def logComp (cmp : α → α → Bool) : CompM α (List (α × α)) :=
  ⟨fun a b s => (cmp a b, s ++ [(a, b)])⟩

/-- `array.splice(i, 0, x)` on an array modelled as a list: insert `x`
before position `i` (appending when `i ≥ length`, as `splice` does). -/
def splice (l : List α) (i : Nat) (x : α) : List α :=
  l.take i ++ x :: l.drop i

/-- The `while (l <= r)` loop of `_binInsertIdx` (current revision,
`src` lines 712–719): bisect with midpoint `m = l + ⌊(r−l)/2⌋`, asking
the comparator which of `item` and `array[m]` ranks higher.  `l` and `r`
are `Int` because `r` becomes `-1` when the item belongs at the front.
The fuel argument only bounds the iteration count; `binInsertIdx` passes
a provably sufficient amount. -/
def binSearchLoop (c : CompM α σ) (arr : List α) (item : α) :
    Nat → Int → Int → σ → Except SortError Nat × σ
  | 0, _, _, s => (.error .outOfFuel, s)
  | fuel + 1, l, r, s =>
    if l ≤ r then
      let m := l + (r - l) / 2
      match arr[m.toNat]? with
      | none => (.error .internalError, s)
      | some am =>
        let q := c.query item am s
        if q.1 then binSearchLoop c arr item fuel l (m - 1) q.2
        else binSearchLoop c arr item fuel (m + 1) r q.2
    else (.ok l.toNat, s)

/-- `_binInsertIdx` (current revision): the index before which `item`
must be inserted into the ascending `arr`.  Empty array → `0`; an item
already present is an invariant violation; a single-element array is
decided by one comparison; otherwise binary search over `l = 0`,
`r = arr.length - 1`. -/
def binInsertIdx [DecidableEq α] (c : CompM α σ) (arr : List α) (item : α)
    (s : σ) : Except SortError Nat × σ :=
  match arr with
  | [] => (.ok 0, s)
  | [x] =>
    if item ∈ arr then (.error .itemAlreadyInserted, s)
    else
      let q := c.query item x s
      (.ok (if q.1 then 0 else 1), q.2)
  | _ =>
    if item ∈ arr then (.error .itemAlreadyInserted, s)
    else binSearchLoop c arr item (arr.length + 1) 0 ((arr.length : Int) - 1) s

/-- Steps 1–2 of the algorithm (the `for (let i=0; i<array.length-1; i+=2)`
pairing loop): one comparison per adjacent pair, producing the association
list of `(larger, smaller)` pairs in pairing order (the JavaScript `Map`
keyed by the larger item, whose keys the sort recurses on; with distinct
input items the keys are distinct, so the insertion-ordered `Map` is
exactly this association list).  A trailing unpaired item is skipped. -/
def buildPairs (c : CompM α σ) : List α → σ → List (α × α) × σ
  | a :: b :: rest, s =>
    let q := c.query a b s
    let p := if q.1 then (b, a) else (a, b)
    let r := buildPairs c rest q.2
    (p :: r.1, r.2)
  | _, s => ([], s)

/-- One slot of the main chain (the `SortingPair` interface): a
confirmed-sorted item and, optionally, its still-pending smaller partner. -/
structure SortingPair (α : Type u) where
  item : α
  smaller : Option α
deriving DecidableEq, Repr

/-- The group-size sequence produced by the `_groupSizes` generator
(OEIS A014113): `a 0 = 0` and `a (n+1) = 2^(n+1) − a n`, yielding
2, 2, 6, 10, 22, 42, 86, … from index 1. -/
def groupSize : Nat → Nat
  | 0 => 0
  | n + 1 => 2 ^ (n + 1) - groupSize n

/-- The loop of `_makeGroups` (current revision): take the next group of
`groupSize k` indexed items starting at offset `i`, reverse it, and stop
as soon as a group comes up short.  Each full group has size ≥ 2, so
`length + 1` units of fuel (supplied by `makeGroups`) always suffice. -/
def makeGroupsAux : Nat → Nat → Nat → List (Nat × β) → List (Nat × β)
  | 0, _, _, _ => []
  | fuel + 1, k, i, items =>
    let size := groupSize k
    let group := ((items.drop i).take size).reverse
    if group.length < size then group
    else group ++ makeGroupsAux fuel (k + 1) (i + size) items

/-- `_makeGroups` (current revision): pair every item with its original
index, then chunk into groups of sizes 2, 2, 6, 10, …, reversing inside
each group and concatenating the groups in ascending order. -/
def makeGroups (l : List β) : List (Nat × β) :=
  makeGroupsAux (l.length + 1) 1 0 l.enum

/-- `delete pair.smaller` on the main chain: the deleted `smaller` field
belongs to the chain slot holding `pair.item` (the chain's items are
pairwise distinct in every reachable state, so locating the slot by its
item value coincides with JavaScript object identity). -/
def clearSmaller [DecidableEq α] (chain : List (SortingPair α)) (x : α) :
    List (SortingPair α) :=
  chain.map fun p => if p.item == x then { p with smaller := none } else p

/-- The `for (const pair of groups)` insertion loop of the current
revision's `mergeInsertionSort`: a pending slot without a `smaller`
field is the odd leftover item and is inserted across the whole current
chain; otherwise the slot's pending `smaller` item is inserted into the
chain prefix strictly before the slot's current position (located with
`findIndex`; `Object.is` identity is item-value identity because chain
items are pairwise distinct in every reachable state).  After the
insertion the slot's `smaller` field is deleted. -/
def insertLoop [DecidableEq α] (c : CompM α σ) :
    List (SortingPair α) → List (SortingPair α) → σ →
    Except SortError (List (SortingPair α)) × σ
  | [], chain, s => (.ok chain, s)
  | pair :: rest, chain, s =>
    match pair.smaller with
    | none =>
      match binInsertIdx c (chain.map (·.item)) pair.item s with
      | (.ok idx, s') =>
        insertLoop c rest
          (clearSmaller (splice chain idx ⟨pair.item, none⟩) pair.item) s'
      | (.error e, s') => (.error e, s')
    | some y =>
      let pairIdx := chain.findIdx fun v => v.item == pair.item
      match binInsertIdx c ((chain.take pairIdx).map (·.item)) y s with
      | (.ok idx, s') =>
        insertLoop c rest
          (clearSmaller (splice chain idx ⟨y, none⟩) pair.item) s'
      | (.error e, s') => (.error e, s')

/-- The body of the current revision's `mergeInsertionSort` (`src` lines
732–835), fuel-indexed for the recursion of step 3 (the recursive call
receives a list of half the length, so `length + 1` units of fuel
always suffice; the exported entry point supplies them).

The duplicate check `array.length != new Set(array).size` is modelled by
comparing with the deduplicated length.  `pairs.get(l)` is association
lookup; a lookup that would yield `undefined` under a failed non-null
assertion surfaces as `internalError` (unreachable: the recursive result
is a permutation of the keys).  Step 4 `unshift`/`delete` turns the
chain `⟨x₁, some y₁⟩ :: rest` into `⟨y₁, none⟩ :: ⟨x₁, none⟩ :: rest`. -/
def sortFJ [DecidableEq α] (c : CompM α σ) :
    Nat → List α → σ → Except SortError (List α) × σ
  | 0, _, s => (.error .outOfFuel, s)
  | fuel + 1, arr, s =>
    match arr with
    | [] => (.ok [], s)
    | [a] => (.ok [a], s)
    | a :: b :: rest =>
      if (a :: b :: rest).length ≠ (a :: b :: rest).dedup.length then
        (.error .duplicateItems, s)
      else
        match rest with
        | [] =>
          let q := c.query a b s
          (.ok (if q.1 then [a, b] else [b, a]), q.2)
        | _ :: _ =>
          let arr := a :: b :: rest
          let bp := buildPairs c arr s
          let prs := bp.1
          match sortFJ c fuel (prs.map Prod.fst) bp.2 with
          | (.error e, s2) => (.error e, s2)
          | (.ok larger, s2) =>
            let mainChain : List (SortingPair α) :=
              larger.map fun l => ⟨l, prs.lookup l⟩
            match mainChain with
            | [] => (.error .internalError, s2)
            | first :: restChain =>
              match first.smaller with
              | none => (.error .internalError, s2)
              | some y1 =>
                let chain1 : List (SortingPair α) :=
                  ⟨y1, none⟩ :: ⟨first.item, none⟩ :: restChain
                let toInsert := chain1.drop 2
                let toInsert :=
                  if arr.length % 2 = 1 then toInsert ++ [⟨arr.getLastD a, none⟩]
                  else toInsert
                let groups := (makeGroups toInsert).map Prod.snd
                match insertLoop c groups chain1 s2 with
                | (.ok chainF, s3) => (.ok (chainF.map (·.item)), s3)
                | (.error e, s3) => (.error e, s3)

/-- The current revision's exported `mergeInsertionSort`, supplying the
fuel for the recursion. -/
def mergeInsertionSort [DecidableEq α] (c : CompM α σ) (arr : List α)
    (s : σ) : Except SortError (List α) × σ :=
  sortFJ c (arr.length + 1) arr s

/-! ## The earlier revision: `_binInsert`, `_cachedComparator`, `_mergeInsertionSort`

The repository also carries the module's previous revision, whose exported
entry point wraps the caller's comparator in `_cachedComparator` before
recursing.  Its pairing loop is identical to `buildPairs` above; the
remaining pieces differ and are embedded separately below. -/

/-- The memoisation state of `_cachedComparator`: the nested
`Map<T, Map<T, 0|1>>` flattened to an association list keyed by the
ordered argument pair (each ordered pair is stored at most once, so the
flattening is faithful), together with the log of the invocations that
actually reached the wrapped external comparator. -/
structure CacheState (α : Type u) where
  cache : List (α × α × Bool)
  extLog : List (α × α)

/-- `cache.get(a)?.get(b)`: the stored result for the ordered pair
`(a, b)`, if any. -/
def pairLookup [DecidableEq α] (a b : α) : List (α × α × Bool) → Option Bool
  | [] => none
  | e :: rest =>
    if e.1 = a ∧ e.2.1 = b then some e.2.2 else pairLookup a b rest

/-- `_cachedComparator comp` as a comparator state machine: a hit on
`(a, b)` returns the stored result, a hit on `(b, a)` returns the
inverted stored result (`cache.get(b)!.get(a)! ? 0 : 1`), and a miss
delegates to the external comparator `cmp`, stores the result, and
records the external invocation. -/
def cachedComp [DecidableEq α] (cmp : α → α → Bool) : CompM α (CacheState α) :=
  ⟨fun a b s =>
    match pairLookup a b s.cache with
    | some v => (v, s)
    | none =>
      match pairLookup b a s.cache with
      | some v => (!v, s)
      | none =>
        let rv := cmp a b
        (rv, ⟨s.cache ++ [(a, b, rv)], s.extLog ++ [(a, b)]⟩)⟩

/-- The `while (l <= r)` loop of the earlier revision's `_binInsert`,
with midpoint `m = ⌊(l+r)/2⌋` (equal to `l + ⌊(r−l)/2⌋` for `l ≤ r`,
but transcribed as written). -/
def oldBinSearchLoop (c : CompM α σ) (arr : List α) (item : α) :
    Nat → Int → Int → σ → Except SortError Nat × σ
  | 0, _, _, s => (.error .outOfFuel, s)
  | fuel + 1, l, r, s =>
    if l ≤ r then
      let m := (l + r) / 2
      match arr[m.toNat]? with
      | none => (.error .internalError, s)
      | some am =>
        let q := c.query item am s
        if q.1 then oldBinSearchLoop c arr item fuel l (m - 1) q.2
        else oldBinSearchLoop c arr item fuel (m + 1) r q.2
    else (.ok l.toNat, s)

/-- `_binInsert` (earlier revision): insert `item` into `arr` in place,
searching only up to the inclusive `right` bound; returns the updated
array.  Errors: item already present, or a negative `right` bound. -/
def oldBinInsert [DecidableEq α] (c : CompM α σ) (arr : List α)
    (right : Int) (item : α) (s : σ) : Except SortError (List α) × σ :=
  if item ∈ arr then (.error .itemAlreadyInserted, s)
  else if right < 0 then (.error .rightIndexNegative, s)
  else
    match oldBinSearchLoop c arr item (arr.length + 1) 0
        (min right ((arr.length : Int) - 1)) s with
    | (.ok l, s') => (.ok (splice arr l item), s')
    | (.error e, s') => (.error e, s')

/-- The loop of the earlier revision's `_makeGroups`: like the current
one, but each item is tagged `j + i + 3` (its position among the
pending items plus 3, the index of the `y`-label it carries). -/
def oldMakeGroupsAux : Nat → Nat → Nat → List β → List (Nat × β)
  | 0, _, _, _ => []
  | fuel + 1, k, i, items =>
    let size := groupSize k
    let group :=
      (((items.drop i).take size).enum.map fun je => (je.1 + i + 3, je.2)).reverse
    if group.length < size then group
    else group ++ oldMakeGroupsAux fuel (k + 1) (i + size) items

/-- `_makeGroups` (earlier revision). -/
def oldMakeGroups (l : List β) : List (Nat × β) :=
  oldMakeGroupsAux (l.length + 1) 1 0 l

/-- The `for (const [idx, item] of groups)` loop of the earlier
revision's `_mergeInsertionSort`: insert each pending item into the
results array, bounded by `idx - 1`. -/
def oldInsertLoop [DecidableEq α] (c : CompM α σ) :
    List (Nat × α) → List α → σ → Except SortError (List α) × σ
  | [], results, s => (.ok results, s)
  | (idx, item) :: rest, results, s =>
    match oldBinInsert c results ((idx : Int) - 1) item s with
    | (.ok results', s') => oldInsertLoop c rest results' s'
    | (.error e, s') => (.error e, s')

/-- `_mergeInsertionSort` (earlier revision), fuel-indexed like
`sortFJ`.  It differs from the current revision in steps 4–5: the
results array holds bare items, the pending smaller items are recovered
with `pairs.get` (`mapM`+lookup; a failed non-null assertion surfaces as
`internalError`, unreachable), and each insertion is bounded by the
pending item's tagged index minus one. -/
def oldSortFJ [DecidableEq α] (c : CompM α σ) :
    Nat → List α → σ → Except SortError (List α) × σ
  | 0, _, s => (.error .outOfFuel, s)
  | fuel + 1, arr, s =>
    match arr with
    | [] => (.ok [], s)
    | [a] => (.ok [a], s)
    | a :: b :: rest =>
      if (a :: b :: rest).length ≠ (a :: b :: rest).dedup.length then
        (.error .duplicateItems, s)
      else
        match rest with
        | [] =>
          let q := c.query a b s
          (.ok (if q.1 then [a, b] else [b, a]), q.2)
        | _ :: _ =>
          let arr := a :: b :: rest
          let bp := buildPairs c arr s
          let prs := bp.1
          match oldSortFJ c fuel (prs.map Prod.fst) bp.2 with
          | (.error e, s2) => (.error e, s2)
          | (.ok results, s2) =>
            match results with
            | [] => (.error .internalError, s2)
            | r0 :: _ =>
              match prs.lookup r0 with
              | none => (.error .internalError, s2)
              | some y1 =>
                let results1 := y1 :: results
                match (results1.drop 2).mapM (fun e => prs.lookup e) with
                | none => (.error .internalError, s2)
                | some remaining =>
                  let remaining :=
                    if arr.length % 2 = 1 then remaining ++ [arr.getLastD a]
                    else remaining
                  let groups := oldMakeGroups remaining
                  oldInsertLoop c groups results1 s2

/-- The earlier revision's exported `mergeInsertionSort`: wrap the
caller-supplied external comparator `cmp` in a fresh comparison cache,
then run `_mergeInsertionSort`.  The final `CacheState` records, in
`extLog`, exactly the invocations that reached `cmp`. -/
def oldMergeInsertionSort [DecidableEq α] (cmp : α → α → Bool)
    (arr : List α) : Except SortError (List α) × CacheState α :=
  oldSortFJ (cachedComp cmp) (arr.length + 1) arr ⟨[], []⟩

/-- `⌊log₂ n⌋` by repeated halving with explicit fuel (`log2fuel n n`
halves at most `n` times), keeping the definition kernel-computable. -/
def log2fuel : Nat → Nat → Nat
  | 0, _ => 0
  | fuel + 1, n => if 2 ≤ n then log2fuel fuel (n / 2) + 1 else 0

/-- `⌊log₂ n⌋` (0 for `n ≤ 1`), modelling `Math.floor(Math.log2 n)` on
the exactly-representable arguments the module uses it at. -/
def flog2 (n : Nat) : Nat := log2fuel n n

/-- `⌈log₂ n⌉` (0 for `n ≤ 1`): the smallest `k` with `n ≤ 2 ^ k`. -/
def clog2 (n : Nat) : Nat := if n ≤ 1 then 0 else flog2 (n - 1) + 1

/-- `mergeInsertionMaxComparisons`: fails for negative `n`, yields 0 for
`n = 0`, and otherwise evaluates
`n·⌈log₂(3n/4)⌉ − ⌊2^⌊log₂ 6n⌋ / 3⌋ + ⌊log₂(6n)/2⌋` — with
`⌈log₂(3n/4)⌉ = ⌈log₂ 3n⌉ − 2` since subtracting the integer 2 commutes
with the ceiling; the JavaScript floating-point evaluation agrees with
this exact integer arithmetic on the argument range exercised here. -/
def mergeInsertionMaxComparisons (n : Int) : Except SortError Int :=
  if n < 0 then .error .invalidArgument
  else if n = 0 then .ok 0
  else
    let m := n.toNat
    .ok (n * ((clog2 (3 * m) : Int) - 2)
      - ((2 ^ flog2 (6 * m) / 3 : Nat) : Int)
      + ((flog2 (6 * m) / 2 : Nat) : Int))

/-! ## Spec-side description of the group scheduler -/

/-- Modelled from the spec (§4.2), for comparison with `_makeGroups`:
partition a list into consecutive groups of sizes
`groupSize k, groupSize (k+1), …`, the last group possibly shorter when
the list is exhausted.  (Fuel-indexed like the code; `specGroupOrder`
supplies enough.) -/
def specChunks : Nat → Nat → List β → List (List β)
  | 0, _, _ => []
  | fuel + 1, k, l =>
    if l.length < groupSize k then [l]
    else l.take (groupSize k) :: specChunks fuel (k + 1) (l.drop (groupSize k))

/-- Modelled from the spec (§4.2): partition the pending list into
consecutive groups of sizes 2, 2, 6, 10, …; within each group reverse
the order; concatenate the groups in ascending group order. -/
def specGroupOrder (l : List β) : List β :=
  ((specChunks (l.length + 1) 1 l).map List.reverse).flatten

/-! ## Properties of runs -/

/-- Two invocation argument tuples name the same unordered pair. -/
def unordEq (p q : α × α) : Prop := p = q ∨ p = (q.2, q.1)

/-- A log in which no unordered pair occurs twice. -/
def NoDupUnordered (log : List (α × α)) : Prop :=
  log.Pairwise fun p q => ¬ unordEq p q

/-- The item that the insertion loop will insert for a pending slot:
its `smaller` partner, or the slot's own item for the leftover slot. -/
def pendVal (g : SortingPair α) : α := g.smaller.getD g.item

/-- Every recorded invocation received two distinct arguments. -/
def DistinctArgs (log : List (α × α)) : Prop := ∀ p ∈ log, p.1 ≠ p.2

/-- The unordered pair `(a, b)` has a stored result in the cache. -/
def pairMem [DecidableEq α] (a b : α) (cache : List (α × α × Bool)) : Prop :=
  (pairLookup a b cache).isSome ∨ (pairLookup b a cache).isSome

/-- The invariant of `_cachedComparator`: no unordered pair was submitted
to the external comparator twice, and every submitted pair has a stored
result. -/
def CacheInv [DecidableEq α] (s : CacheState α) : Prop :=
  NoDupUnordered s.extLog ∧ ∀ p ∈ s.extLog, pairMem p.1 p.2 s.cache

/-! ## C2: definitions for the comparison-count bound -/

/-- The number of distinct unordered pairs among the logged invocation
argument tuples: each invocation is counted exactly when its unordered
argument pair does not occur again later in the log, so every distinct
unordered pair is counted once, at its last occurrence. -/
def countDistinctUnord [DecidableEq α] : List (α × α) → Nat
  | [] => 0
  | p :: ps =>
    if ps.any fun q => p == q || p == (q.2, q.1) then countDistinctUnord ps
    else countDistinctUnord ps + 1

/-- Partial sums of the group-size sequence: the total size of the
first `k` groups of the scheduler. -/
def groupSizeSum : Nat → Nat
  | 0 => 0
  | k + 1 => groupSizeSum k + groupSize (k + 1)

/-- Fuel-bounded search for the group a pending position falls into
(`groupOf` supplies provably sufficient fuel). -/
def groupOfAux : Nat → Nat → Nat → Nat
  | 0, k, _ => k
  | fuel + 1, k, j => if j < groupSizeSum k then k else groupOfAux fuel (k + 1) j

/-- The number of the scheduler group containing pending position `j`
(0-based): the least `k ≥ 1` with `j < groupSizeSum k`. -/
def groupOf (j : Nat) : Nat := groupOfAux (j + 2) 1 j

/-- The insertion-comparison budget for the `d` pending positions
`i, i+1, …, i+d−1`: inserting the pending item at position `j` costs at
most `groupOf j + 1` comparisons. -/
def insertBudgetFrom : Nat → Nat → Nat
  | 0, _ => 0
  | d + 1, i => (groupOf i + 1) + insertBudgetFrom d (i + 1)

/-- The insertion-comparison budget for all `p` pending positions. -/
def insertBudget (p : Nat) : Nat := insertBudgetFrom p 0

/-- The comparison budget of the whole sort on `n` items, in sum form:
`Σ_{i=1..n} (⌈log₂ 3i⌉ − 2)` (OEIS A001768). -/
def compSum : Nat → Nat
  | 0 => 0
  | n + 1 => compSum n + (clog2 (3 * (n + 1)) - 2)

/-- The value `mergeInsertionMaxComparisons` returns for a positive
argument `m`. -/
def maxCompClosed (m : Nat) : Int :=
  (m : Int) * ((clog2 (3 * m) : Int) - 2)
    - ((2 ^ flog2 (6 * m) / 3 : Nat) : Int) + ((flog2 (6 * m) / 2 : Nat) : Int)

/-! ## Basic helper lemmas -/

/-- The duplicate check of the sort: `array.length == new Set(array).size`
holds exactly when the items are pairwise distinct. -/
theorem nodup_iff_dedup_length [DecidableEq α] (l : List α) :
    l.Nodup ↔ l.dedup.length = l.length := by
  constructor
  · intro h
    rw [List.dedup_eq_self.mpr h]
  · intro h
    have := (List.dedup_sublist l).eq_of_length h
    rw [← this]
    exact l.nodup_dedup

theorem splice_perm (l : List α) (i : Nat) (x : α) :
    (splice l i x).Perm (x :: l) := by
  unfold splice
  have h := @List.perm_middle α x (l.take i) (l.drop i)
  rwa [List.take_append_drop] at h

theorem splice_map (f : α → β) (l : List α) (i : Nat) (x : α) :
    (splice l i x).map f = splice (l.map f) i (f x) := by
  simp [splice]

theorem clearSmaller_map_item [DecidableEq α]
    (chain : List (SortingPair α)) (x : α) :
    (clearSmaller chain x).map (·.item) = chain.map (·.item) := by
  unfold clearSmaller
  rw [List.map_map]
  congr 1
  funext p
  show (if p.item == x then ({ p with smaller := none } : SortingPair α)
    else p).item = p.item
  split <;> rfl

/-! ## C5: the comparison-bound formula -/

/-- C5: `mergeInsertionMaxComparisons` fails with the invalid-argument
error for every negative `n`, returns 0 for `n = 0`, and returns
1, 3, 5, 7, 10, 13, 16, 19, 22 for `n = 1..10`. -/
theorem maxComparisons_values :
    (∀ n : Int, n < 0 →
      mergeInsertionMaxComparisons n = .error .invalidArgument) ∧
    (List.range 11).map (fun i => mergeInsertionMaxComparisons (i : Int)) =
      [.ok 0, .ok 0, .ok 1, .ok 3, .ok 5, .ok 7, .ok 10, .ok 13, .ok 16,
       .ok 19, .ok 22] := by
  constructor
  · intro n h
    rw [mergeInsertionMaxComparisons, if_pos h]
  · rfl

/-- Witness for C5 at the concrete negative argument `-1`. -/
theorem maxComparisons_values_witness :
    mergeInsertionMaxComparisons (-1) = .error .invalidArgument :=
  maxComparisons_values.1 (-1) (by decide)

/-! ## C4: duplicate items are rejected before any comparison -/

/-- C4: on an input containing two equal items, the sort fails with the
duplicate-item error and the comparator log is still empty: the failure
happens before any comparator invocation. -/
theorem sort_duplicate_rejected [DecidableEq α] (cmp : α → α → Bool)
    (arr : List α) (h : ¬ arr.Nodup) :
    mergeInsertionSort (logComp cmp) arr [] = (.error .duplicateItems, []) := by
  match arr with
  | [] => exact absurd List.nodup_nil h
  | [a] => exact absurd (List.nodup_singleton a) h
  | a :: b :: rest =>
    have hne : (a :: b :: rest).length ≠ (a :: b :: rest).dedup.length := by
      intro heq
      exact h ((nodup_iff_dedup_length _).mpr heq.symm)
    rw [mergeInsertionSort, sortFJ.eq_def]
    simp only [List.length_cons]
    rw [if_pos (by simpa using hne)]

/-- Witness for C4 at the repository's own test input `['A','B','B']`
(items modelled as naturals). -/
theorem sort_duplicate_rejected_witness :
    mergeInsertionSort (logComp (fun a b : Nat => a < b)) [0, 1, 1] [] =
      (.error .duplicateItems, []) :=
  sort_duplicate_rejected (fun a b : Nat => a < b) [0, 1, 1] (by decide)

/-! ## C3: the comparison cache never re-submits an unordered pair -/

theorem pairLookup_append [DecidableEq α] (a b : α)
    (l1 l2 : List (α × α × Bool)) :
    pairLookup a b (l1 ++ l2) =
      match pairLookup a b l1 with
      | some v => some v
      | none => pairLookup a b l2 := by
  induction l1 with
  | nil => simp [pairLookup]
  | cons e rest ih =>
    rw [List.cons_append, pairLookup, pairLookup]
    split
    · rfl
    · exact ih

theorem cachedComp_preserves_inv [DecidableEq α] (cmp : α → α → Bool)
    (a b : α) (s : CacheState α) (h : CacheInv s) :
    CacheInv ((cachedComp cmp).query a b s).2 := by
  rw [cachedComp]
  simp only
  cases hab : pairLookup a b s.cache with
  | some v => exact h
  | none =>
    cases hba : pairLookup b a s.cache with
    | some v => exact h
    | none =>
      obtain ⟨hnd, hmem⟩ := h
      constructor
      · rw [NoDupUnordered, List.pairwise_append]
        refine ⟨hnd, List.pairwise_singleton _ _, ?_⟩
        intro p hp q hq
        rw [List.mem_singleton] at hq
        subst hq
        intro habs
        have hm := hmem p hp
        rcases habs with h1 | h1 <;> subst h1
        · rcases hm with h2 | h2 <;> simp only [hab, hba] at h2 <;>
            exact absurd h2 (by simp)
        · rcases hm with h2 | h2 <;> simp only [hab, hba] at h2 <;>
            exact absurd h2 (by simp)
      · intro p hp
        rw [List.mem_append] at hp
        rcases hp with hp | hp
        · have := hmem p hp
          rcases this with h2 | h2
          · exact Or.inl (by rw [pairLookup_append]; cases hpl : pairLookup p.1 p.2 s.cache with
              | some v => simp
              | none => rw [hpl] at h2; simp at h2)
          · exact Or.inr (by rw [pairLookup_append]; cases hpl : pairLookup p.2 p.1 s.cache with
              | some v => simp
              | none => rw [hpl] at h2; simp at h2)
        · rw [List.mem_singleton] at hp
          subst hp
          refine Or.inl ?_
          rw [pairLookup_append, hab]
          simp [pairLookup]

section Preservation

variable {α : Type u} {σ : Type v} {c : CompM α σ} {P : σ → Prop}

theorem oldBinSearchLoop_preserve
    (hP : ∀ a b s, P s → P ((c.query a b s).2)) (arr : List α) (item : α) :
    ∀ (fuel : Nat) (l r : Int) (s : σ), P s →
      P (oldBinSearchLoop c arr item fuel l r s).2
  | 0, _, _, _, hs => hs
  | fuel + 1, l, r, s, hs => by
    simp only [oldBinSearchLoop]
    split
    · split
      · exact hs
      · split
        · exact oldBinSearchLoop_preserve hP arr item fuel _ _ _ (hP _ _ _ hs)
        · exact oldBinSearchLoop_preserve hP arr item fuel _ _ _ (hP _ _ _ hs)
    · exact hs

theorem oldBinInsert_preserve [DecidableEq α]
    (hP : ∀ a b s, P s → P ((c.query a b s).2)) (arr : List α)
    (right : Int) (item : α) (s : σ) (hs : P s) :
    P (oldBinInsert c arr right item s).2 := by
  rw [oldBinInsert]
  split
  · exact hs
  · split
    · exact hs
    · have := oldBinSearchLoop_preserve hP arr item (arr.length + 1) 0
        (min right ((arr.length : Int) - 1)) s hs
      split
      · next heq =>
        rw [heq] at this
        exact this
      · next heq =>
        rw [heq] at this
        exact this

theorem buildPairs_preserve
    (hP : ∀ a b s, P s → P ((c.query a b s).2)) :
    ∀ (arr : List α) (s : σ), P s → P (buildPairs c arr s).2
  | [], _, hs => hs
  | [_], _, hs => hs
  | _ :: _ :: rest, s, hs =>
    buildPairs_preserve hP rest _ (hP _ _ s hs)

theorem oldInsertLoop_preserve [DecidableEq α]
    (hP : ∀ a b s, P s → P ((c.query a b s).2)) :
    ∀ (groups : List (Nat × α)) (results : List α) (s : σ), P s →
      P (oldInsertLoop c groups results s).2 := by
  intro groups
  induction groups with
  | nil => intro results s hs; exact hs
  | cons g rest ih =>
    intro results s hs
    obtain ⟨idx, item⟩ := g
    rw [oldInsertLoop]
    have h1 := oldBinInsert_preserve hP results ((idx : Int) - 1) item s hs
    split
    · next heq =>
      rw [heq] at h1
      exact ih _ _ h1
    · next heq =>
      rw [heq] at h1
      exact h1

theorem oldSortFJ_preserve [DecidableEq α]
    (hP : ∀ a b s, P s → P ((c.query a b s).2)) :
    ∀ (fuel : Nat) (arr : List α) (s : σ), P s →
      P (oldSortFJ c fuel arr s).2
  | 0, _, _, hs => hs
  | _ + 1, [], _, hs => hs
  | _ + 1, [_], _, hs => hs
  | fuel + 1, a :: b :: [], s, hs => by
    simp only [oldSortFJ]
    split
    · exact hs
    · exact hP _ _ _ hs
  | fuel + 1, a :: b :: rr :: rest', s, hs => by
    simp only [oldSortFJ]
    split
    · exact hs
    · have h1 := buildPairs_preserve hP (a :: b :: rr :: rest') s hs
      have h2 := oldSortFJ_preserve hP fuel
        ((buildPairs c (a :: b :: rr :: rest') s).1.map Prod.fst)
        (buildPairs c (a :: b :: rr :: rest') s).2 h1
      split
      · next heq => rw [heq] at h2; exact h2
      · next larger s2 heq =>
        rw [heq] at h2
        split
        · exact h2
        · split
          · exact h2
          · split
            · exact h2
            · exact oldInsertLoop_preserve hP _ _ _ h2

end Preservation

/-- C3: during one top-level call of the exported (cache-wrapping)
`mergeInsertionSort`, the caller-supplied external comparator is never
invoked twice for the same unordered pair of items — for every input and
every external comparator, across all recursive levels. -/
theorem cached_sort_no_duplicate_external_calls [DecidableEq α]
    (cmp : α → α → Bool) (arr : List α) :
    NoDupUnordered (oldMergeInsertionSort cmp arr).2.extLog := by
  have h0 : CacheInv (⟨[], []⟩ : CacheState α) :=
    ⟨List.Pairwise.nil, by intro p hp; exact absurd hp (List.not_mem_nil p)⟩
  exact (oldSortFJ_preserve (cachedComp_preserves_inv cmp) (arr.length + 1)
    arr ⟨[], []⟩ h0).1

/-! ## C6: the group scheduler -/

/-- The group sizes are at least 2 (and at most `2^k`), from index 1 on. -/
theorem groupSize_bounds : ∀ k : Nat, 2 ≤ groupSize (k + 1) ∧ groupSize (k + 1) ≤ 2 ^ (k + 1) := by
  intro k
  induction k with
  | zero => exact ⟨le_refl 2, le_refl 2⟩
  | succ n ih =>
    obtain ⟨h2, hub⟩ := ih
    have hpow : 2 ^ (n + 2) = 2 * 2 ^ (n + 1) := by ring
    constructor
    · show 2 ≤ 2 ^ (n + 2) - groupSize (n + 1)
      omega
    · show 2 ^ (n + 2) - groupSize (n + 1) ≤ 2 ^ (n + 2)
      omega

/-- The loop of `_makeGroups` computes exactly the spec-side
reversed-chunk concatenation of the items not yet consumed. -/
theorem makeGroupsAux_eq_specChunks :
    ∀ (fuel k i : Nat) (items : List (Nat × γ)),
      makeGroupsAux fuel k i items =
        ((specChunks fuel k (items.drop i)).map List.reverse).flatten
  | 0, _, _, _ => rfl
  | fuel + 1, k, i, items => by
    rw [makeGroupsAux, specChunks]
    have hlen : ((items.drop i).take (groupSize k)).reverse.length =
        min (groupSize k) (items.drop i).length := by
      simp
    by_cases hshort : (items.drop i).length < groupSize k
    · rw [if_pos (by omega), if_pos hshort]
      have : (items.drop i).take (groupSize k) = items.drop i :=
        List.take_of_length_le (by omega)
      simp [this]
    · rw [if_neg (by omega), if_neg hshort]
      rw [makeGroupsAux_eq_specChunks fuel (k + 1) (i + groupSize k) items]
      rw [List.map_cons, List.flatten_cons, List.drop_drop]

/-- C6: `_makeGroups` returns its input items (each tagged with its
original index) partitioned into consecutive groups of sizes
`groupSize 1, groupSize 2, … = 2, 2, 6, 10, 22, 42, 86, …` (the last
group possibly shorter), reversed within each group and concatenated in
ascending group order; the sizes obey `size (i+1) = 2^(i+1) − size i`
with `size 1 = 2`. -/
theorem makeGroups_eq_specGroupOrder :
    (∀ l : List β, makeGroups l = specGroupOrder l.enum) ∧
    (List.range 7).map (fun i => groupSize (i + 1)) =
      [2, 2, 6, 10, 22, 42, 86] ∧
    groupSize 1 = 2 ∧ ∀ i : Nat, groupSize (i + 1) = 2 ^ (i + 1) - groupSize i := by
  refine ⟨?_, by rfl, rfl, fun i => rfl⟩
  intro l
  rw [makeGroups, specGroupOrder, makeGroupsAux_eq_specChunks]
  rw [List.drop_zero, List.enum_length]

/-! ## C7: correctness of the bounded binary search -/

/-- Inserting `y` at a position that separates the smaller prefix from
the larger suffix of an ascending list keeps it ascending. -/
theorem splice_sorted [LinearOrder α] (l : List α) (idx : Nat) (y : α)
    (hs : l.Sorted (· < ·))
    (h1 : ∀ x ∈ l.take idx, x < y) (h2 : ∀ x ∈ l.drop idx, y < x) :
    (splice l idx y).Sorted (· < ·) := by
  unfold splice
  rw [List.Sorted, List.pairwise_append]
  have hcross : ∀ a ∈ l.take idx, ∀ b ∈ l.drop idx, a < b := by
    have := hs
    rw [List.Sorted] at this
    have h3 : List.Pairwise (· < ·) (l.take idx ++ l.drop idx) := by
      rwa [List.take_append_drop]
    exact (List.pairwise_append.mp h3).2.2
  refine ⟨List.Pairwise.sublist (List.take_sublist idx l) hs, ?_, ?_⟩
  · rw [List.pairwise_cons]
    exact ⟨h2, List.Pairwise.sublist (List.drop_sublist idx l) hs⟩
  · intro a ha b hb
    rcases List.mem_cons.mp hb with hb | hb
    · exact hb ▸ h1 a ha
    · exact hcross a ha b hb

/-- The binary-search loop, run on an ascending array over a comparator
that answers according to the order, returns an index separating the
elements below `item` from those above it. -/
theorem binSearchLoop_sorted [LinearOrder α] {σ : Type v} {c : CompM α σ}
    (hq : ∀ (a b : α) (s : σ), (c.query a b s).1 = decide (a < b))
    (arr : List α) (item : α) (hsort : arr.Sorted (· < ·))
    (hmem : item ∉ arr) :
    ∀ (fuel : Nat) (l r : Int) (s : σ),
      (r + 1 - l).toNat < fuel → 0 ≤ l → l ≤ r + 1 → r < arr.length →
      (∀ x ∈ arr.take l.toNat, x < item) →
      (∀ x ∈ arr.drop (r + 1).toNat, item < x) →
      ∃ idx s', binSearchLoop c arr item fuel l r s = (.ok idx, s') ∧
        idx ≤ arr.length ∧ (∀ x ∈ arr.take idx, x < item) ∧
        (∀ x ∈ arr.drop idx, item < x) := by
  intro fuel
  induction fuel with
  | zero =>
    intro l r s hfuel
    omega
  | succ n ih =>
    intro l r s hfuel hl hlr hr htake hdrop
    by_cases hle : l ≤ r
    · simp only [binSearchLoop, if_pos hle]
      have hdiv1 : 0 ≤ (r - l) / 2 := Int.ediv_nonneg (by omega) (by norm_num)
      have hdiv2 : (r - l) / 2 ≤ r - l := Int.ediv_le_self _ (by omega)
      set m := l + (r - l) / 2 with hm
      have hmlen : m.toNat < arr.length := by omega
      rw [List.getElem?_eq_getElem hmlen]
      simp only [hq]
      have hamem : arr[m.toNat] ∈ arr := List.getElem_mem hmlen
      by_cases hcomp : item < arr[m.toNat]
      · rw [if_pos (by simpa using hcomp)]
        have hdrop' : ∀ x ∈ arr.drop (m - 1 + 1).toNat, item < x := by
          have hmm : (m - 1 + 1).toNat = m.toNat := by omega
          rw [hmm, List.drop_eq_getElem_cons hmlen]
          intro x hx
          rcases List.mem_cons.mp hx with hx | hx
          · exact hx ▸ hcomp
          · have hsd : List.Pairwise (· < ·) (arr.drop m.toNat) :=
              List.Pairwise.sublist (List.drop_sublist m.toNat arr) hsort
            rw [List.drop_eq_getElem_cons hmlen, List.pairwise_cons] at hsd
            exact lt_trans hcomp (hsd.1 x hx)
        exact ih l (m - 1) _ (by omega) hl (by omega) (by omega) htake hdrop'
      · rw [if_neg (by simpa using hcomp)]
        have hne : arr[m.toNat] ≠ item := fun h => hmem (h ▸ hamem)
        have hlt : arr[m.toNat] < item := lt_of_le_of_ne (not_lt.mp hcomp) hne
        have htake' : ∀ x ∈ arr.take (m + 1).toNat, x < item := by
          have hmm : (m + 1).toNat = m.toNat + 1 := by omega
          rw [hmm, List.take_succ, List.getElem?_eq_getElem hmlen]
          intro x hx
          rcases List.mem_append.mp hx with hx | hx
          · have hcross : ∀ a ∈ arr.take m.toNat, ∀ b ∈ arr.drop m.toNat, a < b := by
              have h3 : List.Pairwise (· < ·) (arr.take m.toNat ++ arr.drop m.toNat) := by
                rw [List.take_append_drop]
                exact hsort
              exact (List.pairwise_append.mp h3).2.2
            have hmemd : arr[m.toNat] ∈ arr.drop m.toNat := by
              rw [List.drop_eq_getElem_cons hmlen]
              exact List.mem_cons_self _ _
            exact lt_trans (hcross x hx _ hmemd) hlt
          · have : x = arr[m.toNat] := by simpa using hx
            exact this ▸ hlt
        exact ih (m + 1) r _ (by omega) (by omega) (by omega) hr htake' hdrop
    · simp only [binSearchLoop, if_neg hle]
      refine ⟨l.toNat, s, rfl, by omega, htake, ?_⟩
      have : (r + 1).toNat = l.toNat := by omega
      rwa [this] at hdrop

/-- `_binInsertIdx` on an ascending array containing distinct elements
and a fresh item succeeds and returns the separating index. -/
theorem binInsertIdx_sorted [LinearOrder α] [DecidableEq α] {σ : Type v}
    {c : CompM α σ}
    (hq : ∀ (a b : α) (s : σ), (c.query a b s).1 = decide (a < b))
    (arr : List α) (item : α) (hsort : arr.Sorted (· < ·))
    (hmem : item ∉ arr) (s : σ) :
    ∃ idx s', binInsertIdx c arr item s = (.ok idx, s') ∧
      idx ≤ arr.length ∧ (∀ x ∈ arr.take idx, x < item) ∧
      (∀ x ∈ arr.drop idx, item < x) := by
  match arr with
  | [] =>
    exact ⟨0, s, rfl, by simp, by simp, by simp at hmem ⊢⟩
  | [x] =>
    rw [binInsertIdx]
    rw [if_neg hmem]
    simp only [hq]
    have hne : item ≠ x := by simpa using hmem
    by_cases hcomp : item < x
    · rw [if_pos (by simpa using hcomp)]
      exact ⟨0, _, rfl, by simp, by simp, by simpa using hcomp⟩
    · rw [if_neg (by simpa using hcomp)]
      have : x < item := lt_of_le_of_ne (not_lt.mp hcomp) (Ne.symm hne)
      exact ⟨1, _, rfl, by simp, by simpa using this, by simp⟩
  | x :: y :: rest =>
    show ∃ idx s',
      (if item ∈ x :: y :: rest then (.error .itemAlreadyInserted, s)
       else binSearchLoop c (x :: y :: rest) item ((x :: y :: rest).length + 1)
         0 (((x :: y :: rest).length : Int) - 1) s) = (.ok idx, s') ∧
      idx ≤ (x :: y :: rest).length ∧
      (∀ z ∈ (x :: y :: rest).take idx, z < item) ∧
      (∀ z ∈ (x :: y :: rest).drop idx, item < z)
    rw [if_neg hmem]
    refine binSearchLoop_sorted hq (x :: y :: rest) item hsort hmem
      ((x :: y :: rest).length + 1) 0 (((x :: y :: rest).length : Int) - 1) s
      (by simp only [List.length_cons]; omega) (by omega)
      (by simp only [List.length_cons]; omega)
      (by simp only [List.length_cons]; omega) (by simp) ?_
    intro z hz
    have hdz : (((x :: y :: rest).length : Int) - 1 + 1).toNat =
        (x :: y :: rest).length := by omega
    rw [hdz, List.drop_length] at hz
    exact absurd hz (List.not_mem_nil z)

/-- C7: on an ascending array and an item not present in it, the
bounded binary search succeeds with an index `i ≤ length` such that
inserting the item before position `i` keeps the array ascending — for
every comparator that answers according to the order. -/
theorem binInsertIdx_insert_sorted [LinearOrder α] [DecidableEq α]
    {σ : Type v} {c : CompM α σ}
    (hq : ∀ (a b : α) (s : σ), (c.query a b s).1 = decide (a < b))
    (arr : List α) (item : α) (hsort : arr.Sorted (· < ·))
    (hmem : item ∉ arr) (s : σ) :
    ∃ idx s', binInsertIdx c arr item s = (.ok idx, s') ∧
      idx ≤ arr.length ∧ (splice arr idx item).Sorted (· < ·) := by
  obtain ⟨idx, s', heq, hle, h1, h2⟩ :=
    binInsertIdx_sorted hq arr item hsort hmem s
  exact ⟨idx, s', heq, hle, splice_sorted arr idx item hsort h1 h2⟩

/-- Witness for C7: searching 3 into the ascending array `[0, 2, 4]`
yields index 2, and inserting there preserves ascending order. -/
theorem binInsertIdx_insert_sorted_witness :
    binInsertIdx (logComp fun a b : Nat => decide (a < b)) [0, 2, 4] 3 [] =
      (.ok 2, [(3, 2), (3, 4)]) ∧
    (splice [0, 2, 4] 2 3).Sorted (· < ·) := by
  obtain ⟨idx, s', heq, hle, hsorted⟩ :=
    binInsertIdx_insert_sorted (c := logComp fun a b : Nat => decide (a < b))
      (fun a b s => rfl) [0, 2, 4] 3 (by decide) (by decide) []
  have hval : binInsertIdx (logComp fun a b : Nat => decide (a < b))
      [0, 2, 4] 3 [] = (.ok 2, [(3, 2), (3, 4)]) := rfl
  have hidx : idx = 2 := by
    have h1 : (Except.ok idx : Except SortError Nat) = .ok 2 :=
      congrArg Prod.fst (heq.symm.trans hval)
    injection h1
  exact ⟨hval, hidx ▸ hsorted⟩

/-! ## C9: the comparator is never invoked with equal arguments -/

theorem DistinctArgs.append_single {log : List (α × α)} {a b : α}
    (h : DistinctArgs log) (hab : a ≠ b) : DistinctArgs (log ++ [(a, b)]) := by
  intro p hp
  rcases List.mem_append.mp hp with hp | hp
  · exact h p hp
  · rw [List.mem_singleton] at hp
    subst hp
    exact hab

theorem binSearchLoop_distinctArgs (cmp : α → α → Bool) (arr : List α)
    (item : α) (hmem : item ∉ arr) :
    ∀ (fuel : Nat) (l r : Int) (s : List (α × α)), DistinctArgs s →
      DistinctArgs (binSearchLoop (logComp cmp) arr item fuel l r s).2
  | 0, _, _, _, hs => hs
  | fuel + 1, l, r, s, hs => by
    simp only [binSearchLoop]
    split
    · split
      · exact hs
      · next am heq =>
        have ham : am ∈ arr := by
          have := List.getElem?_eq_some_iff.mp heq
          obtain ⟨hlt, hget⟩ := this
          exact hget ▸ List.getElem_mem hlt
        have hne : item ≠ am := fun h => hmem (h ▸ ham)
        have hs' : DistinctArgs (s ++ [(item, am)]) := hs.append_single hne
        split
        · exact binSearchLoop_distinctArgs cmp arr item hmem fuel _ _ _ hs'
        · exact binSearchLoop_distinctArgs cmp arr item hmem fuel _ _ _ hs'
    · exact hs

theorem binInsertIdx_distinctArgs [DecidableEq α] (cmp : α → α → Bool)
    (arr : List α) (item : α) (s : List (α × α)) (hs : DistinctArgs s) :
    DistinctArgs (binInsertIdx (logComp cmp) arr item s).2 := by
  match arr with
  | [] => exact hs
  | [x] =>
    rw [binInsertIdx]
    split
    · exact hs
    · next hmem =>
      have : item ≠ x := by simpa using hmem
      exact hs.append_single this
  | x :: y :: rest =>
    rw [binInsertIdx]
    · split
      · exact hs
      · next hmem =>
        exact binSearchLoop_distinctArgs cmp _ item hmem _ _ _ s hs
    · simp
    · simp

theorem insertLoop_distinctArgs [DecidableEq α] (cmp : α → α → Bool) :
    ∀ (groups chain : List (SortingPair α)) (s : List (α × α)),
      DistinctArgs s →
      DistinctArgs (insertLoop (logComp cmp) groups chain s).2
  | [], _, _, hs => hs
  | pair :: rest, chain, s, hs => by
    simp only [insertLoop]
    split
    · have h1 := binInsertIdx_distinctArgs cmp (chain.map (·.item)) pair.item s hs
      split
      · next heq =>
        rw [heq] at h1
        exact insertLoop_distinctArgs cmp rest _ _ h1
      · next heq =>
        rw [heq] at h1
        exact h1
    · next yv hy =>
      have h1 := binInsertIdx_distinctArgs cmp
        ((chain.take (chain.findIdx fun v => v.item == pair.item)).map (·.item))
        yv s hs
      split
      · next heq =>
        rw [heq] at h1
        exact insertLoop_distinctArgs cmp rest _ _ h1
      · next heq =>
        rw [heq] at h1
        exact h1

theorem buildPairs_distinctArgs (cmp : α → α → Bool) :
    ∀ (arr : List α), arr.Nodup → ∀ (s : List (α × α)), DistinctArgs s →
      DistinctArgs (buildPairs (logComp cmp) arr s).2
  | [], _, _, hs => hs
  | [_], _, _, hs => hs
  | a :: b :: rest, hnd, s, hs => by
    have hab : a ≠ b := by
      have := (List.nodup_cons.mp hnd).1
      intro h
      exact this (h ▸ List.mem_cons_self b rest)
    have hrest : rest.Nodup :=
      (List.nodup_cons.mp (List.nodup_cons.mp hnd).2).2
    exact buildPairs_distinctArgs cmp rest hrest _ (hs.append_single hab)

set_option maxHeartbeats 1000000 in
theorem sortFJ_distinctArgs [DecidableEq α] (cmp : α → α → Bool) :
    ∀ (fuel : Nat) (arr : List α) (s : List (α × α)), DistinctArgs s →
      DistinctArgs (sortFJ (logComp cmp) fuel arr s).2
  | 0, _, _, hs => hs
  | _ + 1, [], _, hs => hs
  | _ + 1, [_], _, hs => hs
  | fuel + 1, a :: b :: [], s, hs => by
    simp only [sortFJ]
    split
    · exact hs
    · next hdedup =>
      have hnd : (a :: b :: ([] : List α)).Nodup := by
        rw [not_not] at hdedup
        exact (nodup_iff_dedup_length _).mpr (by omega)
      have hab : a ≠ b := by
        have := (List.nodup_cons.mp hnd).1
        intro h
        exact this (h ▸ List.mem_cons_self b [])
      exact hs.append_single hab
  | fuel + 1, a :: b :: rr :: rest', s, hs => by
    simp only [sortFJ]
    split
    · exact hs
    · next hdedup =>
      have hnd : (a :: b :: rr :: rest').Nodup := by
        rw [not_not] at hdedup
        exact (nodup_iff_dedup_length _).mpr (by omega)
      have h1 := buildPairs_distinctArgs cmp (a :: b :: rr :: rest') hnd s hs
      have h2 := sortFJ_distinctArgs cmp fuel
        ((buildPairs (logComp cmp) (a :: b :: rr :: rest') s).1.map Prod.fst)
        (buildPairs (logComp cmp) (a :: b :: rr :: rest') s).2 h1
      split
      · next heq => rw [heq] at h2; exact h2
      · next larger s2 heq =>
        rw [heq] at h2
        split
        · exact h2
        · next first restChain hchain =>
          split
          · exact h2
          · next y1 hy1 =>
            have h3 := insertLoop_distinctArgs cmp
              (List.map Prod.snd (makeGroups
                (if (a :: b :: rr :: rest').length % 2 = 1 then
                  List.drop 2 ((⟨y1, none⟩ : SortingPair α) ::
                      ⟨first.item, none⟩ :: restChain) ++
                    [⟨(a :: b :: rr :: rest').getLastD a, none⟩]
                else
                  List.drop 2 ((⟨y1, none⟩ : SortingPair α) ::
                    ⟨first.item, none⟩ :: restChain))))
              ((⟨y1, none⟩ : SortingPair α) :: ⟨first.item, none⟩ :: restChain)
              s2 h2
            split
            · next chainF s3 hil =>
              rw [hil] at h3
              exact h3
            · next e s3 hil =>
              rw [hil] at h3
              exact h3

/-- C9: in a run of the sort on pairwise-distinct items, every
comparator invocation receives two distinct arguments. -/
theorem sort_comparator_args_distinct [DecidableEq α] (cmp : α → α → Bool)
    (arr : List α) (hnd : arr.Nodup) :
    ∀ p ∈ (mergeInsertionSort (logComp cmp) arr []).2, p.1 ≠ p.2 := by
  have := sortFJ_distinctArgs cmp (arr.length + 1) arr []
    (by intro p hp; exact absurd hp (List.not_mem_nil p))
  exact this

/-- Witness for C9 on the concrete input `[2, 0, 3, 1]`: every logged
invocation has two distinct arguments. -/
theorem sort_comparator_args_distinct_witness :
    ((mergeInsertionSort (logComp fun a b : Nat => decide (a < b))
      [2, 0, 3, 1] []).2.all fun p => p.1 != p.2) = true := by
  have h := sort_comparator_args_distinct (fun a b : Nat => decide (a < b))
    [2, 0, 3, 1] (by decide)
  rw [List.all_eq_true]
  intro p hp
  simpa using h p hp

/-! ## Success and permutation lemmas (any comparator) -/

section AnyComparator

variable {α : Type u} {σ : Type v} {c : CompM α σ}

/-- The binary-search loop always succeeds when started inside the
array bounds with enough fuel, whatever the comparator answers. -/
theorem binSearchLoop_ok (arr : List α) (item : α) :
    ∀ (fuel : Nat) (l r : Int) (s : σ),
      (r + 1 - l).toNat < fuel → 0 ≤ l → r < arr.length →
      ∃ idx s', binSearchLoop c arr item fuel l r s = (.ok idx, s') := by
  intro fuel
  induction fuel with
  | zero => intro l r s hfuel; omega
  | succ n ih =>
    intro l r s hfuel hl hr
    by_cases hle : l ≤ r
    · simp only [binSearchLoop, if_pos hle]
      have hdiv1 : 0 ≤ (r - l) / 2 := Int.ediv_nonneg (by omega) (by norm_num)
      have hdiv2 : (r - l) / 2 ≤ r - l := Int.ediv_le_self _ (by omega)
      set m := l + (r - l) / 2 with hm
      have hmlen : m.toNat < arr.length := by omega
      rw [List.getElem?_eq_getElem hmlen]
      simp only
      split
      · exact ih l (m - 1) _ (by omega) hl (by omega)
      · exact ih (m + 1) r _ (by omega) (by omega) hr
    · simp only [binSearchLoop, if_neg hle]
      exact ⟨l.toNat, s, rfl⟩

/-- `_binInsertIdx` succeeds whenever the item is not already present. -/
theorem binInsertIdx_ok [DecidableEq α] (arr : List α) (item : α)
    (hmem : item ∉ arr) (s : σ) :
    ∃ idx s', binInsertIdx c arr item s = (.ok idx, s') := by
  match arr with
  | [] => exact ⟨0, s, rfl⟩
  | [x] =>
    rw [binInsertIdx, if_neg hmem]
    exact ⟨_, _, rfl⟩
  | x :: y :: rest =>
    show ∃ idx s',
      (if item ∈ x :: y :: rest then (.error .itemAlreadyInserted, s)
       else binSearchLoop c (x :: y :: rest) item ((x :: y :: rest).length + 1)
         0 (((x :: y :: rest).length : Int) - 1) s) = (.ok idx, s')
    rw [if_neg hmem]
    exact binSearchLoop_ok (x :: y :: rest) item _ 0 _ s
      (by simp only [List.length_cons]; omega) (by omega)
      (by simp only [List.length_cons]; omega)

/-- The flattened pairing (larger items then smaller items) is a
permutation of the paired prefix of the input. -/
theorem buildPairs_flat_perm :
    ∀ (arr : List α) (s : σ),
      ((buildPairs c arr s).1.map Prod.fst ++
        (buildPairs c arr s).1.map Prod.snd).Perm
        (arr.take (2 * (arr.length / 2)))
  | [], _ => by simp [buildPairs]
  | [a], _ => by simp [buildPairs]
  | a :: b :: rest, s => by
    have ih := buildPairs_flat_perm rest ((c.query a b s).2)
    have harith : 2 * ((a :: b :: rest).length / 2) =
        (2 * (rest.length / 2) + 1) + 1 := by
      simp only [List.length_cons]
      omega
    rw [harith]
    show ((if (c.query a b s).1 then (b, a) else (a, b)).1 ::
        (buildPairs c rest (c.query a b s).2).1.map Prod.fst ++
      ((if (c.query a b s).1 then (b, a) else (a, b)).2 ::
        (buildPairs c rest (c.query a b s).2).1.map Prod.snd)).Perm
      (List.take ((2 * (rest.length / 2) + 1) + 1) (a :: b :: rest))
    rw [List.take_succ_cons, List.take_succ_cons]
    set K := (buildPairs c rest (c.query a b s).2).1.map Prod.fst
    set S := (buildPairs c rest (c.query a b s).2).1.map Prod.snd
    set p := if (c.query a b s).1 then (b, a) else (a, b) with hp
    have h1 : (p.1 :: K ++ p.2 :: S).Perm (p.1 :: p.2 :: (K ++ S)) := by
      refine List.Perm.cons p.1 ?_
      exact List.perm_middle
    have h2 : (p.1 :: p.2 :: (K ++ S)).Perm
        (a :: b :: List.take (2 * (rest.length / 2)) rest) := by
      have htail := List.Perm.cons b (ih)
      have := List.Perm.cons a htail
      by_cases hq : (c.query a b s).1
      · rw [hp, if_pos hq]
        exact (List.Perm.swap a b (K ++ S)).trans this
      · rw [hp, if_neg hq]
        exact this
    exact h1.trans h2

/-- The pairing produces `⌊n/2⌋` pairs. -/
theorem buildPairs_length :
    ∀ (arr : List α) (s : σ),
      (buildPairs c arr s).1.length = arr.length / 2
  | [], _ => by simp [buildPairs]
  | [_], _ => by simp [buildPairs]
  | a :: b :: rest, s => by
    show (buildPairs c rest (c.query a b s).2).1.length + 1 =
      (a :: b :: rest).length / 2
    rw [buildPairs_length rest]
    simp only [List.length_cons]
    omega

end AnyComparator

/-! ## Association-lookup lemmas for the pairs map -/

theorem lookup_isSome_of_mem_keys [DecidableEq α] :
    ∀ (prs : List (α × α)) (x : α), x ∈ prs.map Prod.fst →
      (prs.lookup x).isSome
  | [], x, hx => absurd hx (List.not_mem_nil x)
  | (k, v) :: rest, x, hx => by
    by_cases hxk : x = k
    · subst hxk
      simp [List.lookup]
    · have hne : (x == k) = false := beq_eq_false_iff_ne.mpr hxk
      simp only [List.lookup, hne]
      rcases List.mem_cons.mp hx with h | h
      · exact absurd h hxk
      · exact lookup_isSome_of_mem_keys rest x h

theorem lookup_mem [DecidableEq α] :
    ∀ (prs : List (α × α)) (x y : α), prs.lookup x = some y → (x, y) ∈ prs
  | [], x, y, h => by simp [List.lookup] at h
  | (k, v) :: rest, x, y, h => by
    by_cases hxk : x = k
    · subst hxk
      simp only [List.lookup, beq_self_eq_true] at h
      obtain rfl : v = y := by injection h
      exact List.mem_cons_self _ _
    · have hne : (x == k) = false := beq_eq_false_iff_ne.mpr hxk
      simp only [List.lookup, hne] at h
      exact List.mem_cons_of_mem _ (lookup_mem rest x y h)

/-- Looking the keys up, in key order, returns exactly the values. -/
theorem map_lookup_keys [DecidableEq α] :
    ∀ (prs : List (α × α)), (prs.map Prod.fst).Nodup →
      (prs.map Prod.fst).map (fun k => ((prs.lookup k).getD k)) =
        prs.map Prod.snd
  | [], _ => rfl
  | (k, v) :: rest, hnd => by
    simp only [List.map_cons]
    have hk : (((k, v) :: rest).lookup k).getD k = v := by
      simp [List.lookup]
    have hnd' : (k :: rest.map Prod.fst).Nodup := by
      rw [List.map_cons] at hnd
      exact hnd
    have hknotin : k ∉ rest.map Prod.fst := (List.nodup_cons.mp hnd').1
    have hrest : (rest.map Prod.fst).Nodup := (List.nodup_cons.mp hnd').2
    rw [hk]
    congr 1
    rw [← map_lookup_keys rest hrest]
    refine List.map_congr_left ?_
    intro x hx
    have hne : (x == k) = false := by
      rw [beq_eq_false_iff_ne]
      intro h
      exact hknotin (h ▸ hx)
    simp only [List.lookup, hne]

/-! ## The insertion loop inserts exactly the pending values -/

theorem insertLoop_perm [DecidableEq α] {σ : Type v} {c : CompM α σ} :
    ∀ (groups chain : List (SortingPair α)) (s : σ),
      (chain.map (·.item) ++ groups.map pendVal).Nodup →
      ∃ chainF s', insertLoop c groups chain s = (.ok chainF, s') ∧
        (chainF.map (·.item)).Perm
          (chain.map (·.item) ++ groups.map pendVal)
  | [], chain, s, _ => ⟨chain, s, rfl, by simp⟩
  | pair :: rest, chain, s, hnd => by
    have hdisj := (List.nodup_append.mp hnd).2.2
    have hv : pendVal pair ∉ chain.map (·.item) := by
      intro hmem
      exact hdisj hmem (by
        rw [List.map_cons]
        exact List.mem_cons_self _ _)
    cases hsm : pair.smaller with
    | none =>
      have hpv : pendVal pair = pair.item := by rw [pendVal, hsm]; rfl
      obtain ⟨idx, s', heq⟩ := binInsertIdx_ok (c := c) (chain.map (·.item))
        pair.item (hpv ▸ hv) s
      have hitems : (clearSmaller (splice chain idx ⟨pair.item, none⟩)
          pair.item).map (·.item) =
          splice (chain.map (·.item)) idx pair.item := by
        rw [clearSmaller_map_item, splice_map]
      have hpermstep : ((clearSmaller (splice chain idx ⟨pair.item, none⟩)
          pair.item).map (·.item) ++ rest.map pendVal).Perm
          (chain.map (·.item) ++ (pair :: rest).map pendVal) := by
        rw [hitems, List.map_cons, hpv]
        refine ((splice_perm (chain.map (·.item)) idx pair.item).append_right
          (rest.map pendVal)).trans ?_
        exact List.perm_middle.symm
      obtain ⟨chainF, s'', heq2, hpermF⟩ := insertLoop_perm (c := c) rest
        (clearSmaller (splice chain idx ⟨pair.item, none⟩) pair.item) s'
        (hpermstep.nodup_iff.mpr hnd)
      refine ⟨chainF, s'', ?_, hpermF.trans hpermstep⟩
      simp only [insertLoop, hsm]
      rw [heq]
      exact heq2
    | some y =>
      have hpv : pendVal pair = y := by rw [pendVal, hsm]; rfl
      have hysearch : y ∉ ((chain.take
          (chain.findIdx fun v => v.item == pair.item)).map (·.item)) := by
        intro hmem
        refine (hpv ▸ hv) ?_
        rw [List.map_take] at hmem
        exact List.mem_of_mem_take hmem
      obtain ⟨idx, s', heq⟩ := binInsertIdx_ok (c := c)
        ((chain.take (chain.findIdx fun v => v.item == pair.item)).map (·.item))
        y hysearch s
      have hitems : (clearSmaller (splice chain idx ⟨y, none⟩)
          pair.item).map (·.item) =
          splice (chain.map (·.item)) idx y := by
        rw [clearSmaller_map_item, splice_map]
      have hpermstep : ((clearSmaller (splice chain idx ⟨y, none⟩)
          pair.item).map (·.item) ++ rest.map pendVal).Perm
          (chain.map (·.item) ++ (pair :: rest).map pendVal) := by
        rw [hitems, List.map_cons, hpv]
        refine ((splice_perm (chain.map (·.item)) idx y).append_right
          (rest.map pendVal)).trans ?_
        exact List.perm_middle.symm
      obtain ⟨chainF, s'', heq2, hpermF⟩ := insertLoop_perm (c := c) rest
        (clearSmaller (splice chain idx ⟨y, none⟩) pair.item) s'
        (hpermstep.nodup_iff.mpr hnd)
      refine ⟨chainF, s'', ?_, hpermF.trans hpermstep⟩
      simp only [insertLoop, hsm]
      rw [heq]
      exact heq2

/-! ## The group scheduler permutes its input -/

theorem specChunks_flatten :
    ∀ (fuel k : Nat) (l : List γ), l.length < fuel → 1 ≤ k →
      (specChunks fuel k l).flatten = l
  | 0, _, _, h, _ => absurd h (by omega)
  | fuel + 1, k, l, h, hk => by
    rw [specChunks]
    by_cases hshort : l.length < groupSize k
    · rw [if_pos hshort]
      simp
    · rw [if_neg hshort]
      have hsize : 2 ≤ groupSize k := by
        obtain ⟨k', rfl⟩ : ∃ k', k = k' + 1 := ⟨k - 1, by omega⟩
        exact (groupSize_bounds k').1
      rw [List.flatten_cons]
      rw [specChunks_flatten fuel (k + 1) (l.drop (groupSize k))
        (by rw [List.length_drop]; omega) (by omega)]
      exact List.take_append_drop _ l

theorem flatten_reverse_perm :
    ∀ (chunks : List (List γ)),
      ((chunks.map List.reverse).flatten).Perm chunks.flatten
  | [] => by simp
  | chunk :: rest => by
    simp only [List.map_cons, List.flatten_cons]
    exact (chunk.reverse_perm).append (flatten_reverse_perm rest)

theorem makeGroups_perm_enum (l : List β) : (makeGroups l).Perm l.enum := by
  rw [makeGroups, makeGroupsAux_eq_specChunks, List.drop_zero]
  refine (flatten_reverse_perm _).trans ?_
  rw [specChunks_flatten (l.length + 1) 1 l.enum
    (by rw [List.enum_length]; omega) (by omega)]

theorem makeGroups_snd_perm (l : List β) :
    ((makeGroups l).map Prod.snd).Perm l := by
  have := (makeGroups_perm_enum l).map Prod.snd
  rwa [List.enum_map_snd] at this

/-! ## C10: the sort permutes its input under any comparator -/

set_option maxHeartbeats 4000000 in
/-- Under any comparator behaviour whatsoever, the sort succeeds on
pairwise-distinct items and its result is a permutation of the input. -/
theorem sortFJ_perm [DecidableEq α] {σ : Type v} {c : CompM α σ} :
    ∀ (fuel : Nat) (arr : List α) (s : σ), arr.length < fuel → arr.Nodup →
      ∃ res s', sortFJ c fuel arr s = (.ok res, s') ∧ res.Perm arr
  | 0, arr, _, hf, _ => absurd hf (by omega)
  | _ + 1, [], s, _, _ => ⟨[], s, rfl, List.Perm.refl []⟩
  | _ + 1, [a], s, _, _ => ⟨[a], s, rfl, List.Perm.refl [a]⟩
  | fuel + 1, a :: b :: [], s, _, hnd => by
    have hdd : (a :: b :: []).dedup.length = (a :: b :: []).length :=
      (nodup_iff_dedup_length _).mp hnd
    simp only [sortFJ]
    rw [if_neg (by omega)]
    refine ⟨_, _, rfl, ?_⟩
    by_cases hq : (c.query a b s).1
    · rw [if_pos hq]
    · rw [if_neg hq]
      exact List.Perm.swap a b []
  | fuel + 1, a :: b :: rr :: rest', s, hf, hnd => by
    have hdd : (a :: b :: rr :: rest').dedup.length =
        (a :: b :: rr :: rest').length := (nodup_iff_dedup_length _).mp hnd
    simp only [sortFJ]
    rw [if_neg (by omega)]
    have hflat := buildPairs_flat_perm (c := c) (a :: b :: rr :: rest') s
    have hflatnd : ((buildPairs c (a :: b :: rr :: rest') s).1.map Prod.fst ++
        (buildPairs c (a :: b :: rr :: rest') s).1.map Prod.snd).Nodup :=
      hflat.nodup_iff.mpr
        (List.Nodup.sublist (List.take_sublist _ _) hnd)
    have hkeysnd : ((buildPairs c (a :: b :: rr :: rest') s).1.map
        Prod.fst).Nodup := (List.nodup_append.mp hflatnd).1
    obtain ⟨larger, s2, heqrec, hpermL⟩ := sortFJ_perm (c := c) fuel
      ((buildPairs c (a :: b :: rr :: rest') s).1.map Prod.fst)
      (buildPairs c (a :: b :: rr :: rest') s).2
      (by
        rw [List.length_map, buildPairs_length]
        simp only [List.length_cons] at hf ⊢
        omega)
      hkeysnd
    rw [heqrec]
    match larger, hpermL with
    | [], hpermL =>
      exfalso
      have hlen := hpermL.length_eq
      rw [List.length_map, buildPairs_length] at hlen
      simp only [List.length_nil, List.length_cons] at hlen
      omega
    | l0 :: ltail, hpermL =>
      simp only [List.map_cons]
      have hl0keys : l0 ∈ (buildPairs c (a :: b :: rr :: rest') s).1.map
          Prod.fst := hpermL.mem_iff.mp (List.mem_cons_self _ _)
      obtain ⟨y1, hy1⟩ := Option.isSome_iff_exists.mp
        (lookup_isSome_of_mem_keys _ l0 hl0keys)
      rw [hy1]
      simp only
      -- names for the pieces
      set prs := (buildPairs c (a :: b :: rr :: rest') s).1 with hprs
      set restChain := ltail.map
        (fun l => (⟨l, prs.lookup l⟩ : SortingPair α)) with hrestChain
      have hchainitems : ((⟨y1, none⟩ : SortingPair α) ::
          ⟨l0, none⟩ :: restChain).map (·.item) = y1 :: l0 :: ltail := by
        simp only [List.map_cons, hrestChain, List.map_map]
        congr 1
        congr 1
        rw [show ((fun (x : SortingPair α) => x.item) ∘
          fun l => (⟨l, prs.lookup l⟩ : SortingPair α)) = id from rfl]
        exact List.map_id ltail
      have hpendRest : restChain.map pendVal =
          ltail.map (fun l => (prs.lookup l).getD l) := by
        rw [hrestChain, List.map_map]
        rfl
      have hlookupL : ((l0 :: ltail).map
          (fun k => ((prs.lookup k).getD k))).Perm (prs.map Prod.snd) := by
        rw [← map_lookup_keys prs hkeysnd]
        exact hpermL.map _
      have hy1v : (prs.lookup l0).getD l0 = y1 := by rw [hy1]; rfl
      -- the combined multiset identity, in both parity cases
      have hkv : ((y1 :: l0 :: ltail) ++
          ltail.map (fun k => ((prs.lookup k).getD k))).Perm
          ((a :: b :: rr :: rest').take
            (2 * ((a :: b :: rr :: rest').length / 2))) := by
        have h1 : ((y1 :: l0 :: ltail) ++
            ltail.map (fun k => ((prs.lookup k).getD k))).Perm
            ((l0 :: ltail) ++ y1 ::
              ltail.map (fun k => ((prs.lookup k).getD k))) := by
          exact (@List.perm_middle _ y1 (l0 :: ltail)
            (ltail.map (fun k => ((prs.lookup k).getD k)))).symm
        refine h1.trans ?_
        have h2 : (y1 :: ltail.map (fun k => ((prs.lookup k).getD k))).Perm
            (prs.map Prod.snd) := by
          rw [← hy1v]
          exact hlookupL
        exact (hpermL.append h2).trans hflat
      by_cases hodd : (a :: b :: rr :: rest').length % 2 = 1
      · rw [if_pos hodd]
        have hlast : (a :: b :: rr :: rest').getLastD a =
            (a :: b :: rr :: rest').getLast (by simp) := by
          rw [List.getLastD_eq_getLast?, List.getLast?_eq_getLast _ (by simp)]
          rfl
        have hsplit : (a :: b :: rr :: rest').take
            (2 * ((a :: b :: rr :: rest').length / 2)) ++
            [(a :: b :: rr :: rest').getLastD a] = a :: b :: rr :: rest' := by
          rw [hlast]
          have hdl : 2 * ((a :: b :: rr :: rest').length / 2) =
              (a :: b :: rr :: rest').length - 1 := by omega
          rw [hdl, ← List.dropLast_eq_take]
          exact List.dropLast_append_getLast _
        have hperm1 : ((((⟨y1, none⟩ : SortingPair α) :: ⟨l0, none⟩ ::
            restChain).map (fun p : SortingPair α => p.item)) ++
            (((makeGroups (List.drop 2 ((⟨y1, none⟩ : SortingPair α) ::
              ⟨l0, none⟩ :: restChain) ++
              [(⟨(a :: b :: rr :: rest').getLastD a, none⟩ : SortingPair α)])).map
              Prod.snd).map pendVal)).Perm (a :: b :: rr :: rest') := by
          rw [hchainitems]
          refine (List.Perm.append_left _
            ((makeGroups_snd_perm _).map pendVal)).trans ?_
          simp only [List.drop_succ_cons, List.drop_zero, List.map_append,
            hpendRest]
          rw [← List.append_assoc]
          refine (hkv.append_right _).trans ?_
          rw [show (List.map pendVal
            [(⟨(a :: b :: rr :: rest').getLastD a, none⟩ : SortingPair α)]) =
            [(a :: b :: rr :: rest').getLastD a] from rfl]
          rw [hsplit]
        obtain ⟨chainF, s3, heqIL, hpermF⟩ := insertLoop_perm (c := c)
          ((makeGroups (List.drop 2 ((⟨y1, none⟩ : SortingPair α) ::
            ⟨l0, none⟩ :: restChain) ++
            [⟨(a :: b :: rr :: rest').getLastD a, none⟩])).map Prod.snd)
          ((⟨y1, none⟩ : SortingPair α) :: ⟨l0, none⟩ :: restChain) s2
          (hperm1.nodup_iff.mpr hnd)
        rw [heqIL]
        exact ⟨chainF.map (·.item), s3, rfl, hpermF.trans hperm1⟩
      · rw [if_neg hodd]
        have hsplit : (a :: b :: rr :: rest').take
            (2 * ((a :: b :: rr :: rest').length / 2)) =
            a :: b :: rr :: rest' := by
          have : 2 * ((a :: b :: rr :: rest').length / 2) =
              (a :: b :: rr :: rest').length := by omega
          rw [this, List.take_length]
        have hperm1 : ((((⟨y1, none⟩ : SortingPair α) :: ⟨l0, none⟩ ::
            restChain).map (fun p : SortingPair α => p.item)) ++
            (((makeGroups (List.drop 2 ((⟨y1, none⟩ : SortingPair α) ::
              ⟨l0, none⟩ :: restChain))).map
              Prod.snd).map pendVal)).Perm (a :: b :: rr :: rest') := by
          rw [hchainitems]
          refine (List.Perm.append_left _
            ((makeGroups_snd_perm _).map pendVal)).trans ?_
          simp only [List.drop_succ_cons, List.drop_zero, hpendRest]
          exact hsplit ▸ hkv
        obtain ⟨chainF, s3, heqIL, hpermF⟩ := insertLoop_perm (c := c)
          ((makeGroups (List.drop 2 ((⟨y1, none⟩ : SortingPair α) ::
            ⟨l0, none⟩ :: restChain))).map Prod.snd)
          ((⟨y1, none⟩ : SortingPair α) :: ⟨l0, none⟩ :: restChain) s2
          (hperm1.nodup_iff.mpr hnd)
        rw [heqIL]
        exact ⟨chainF.map (·.item), s3, rfl, hpermF.trans hperm1⟩

/-- C10: whenever the sort returns successfully — under an arbitrary
comparator function, not necessarily consistent with any order — the
result is a permutation of the pairwise-distinct input. -/
theorem sort_result_perm [DecidableEq α] {σ : Type v} (c : CompM α σ)
    (arr : List α) (s : σ) (hnd : arr.Nodup) (res : List α) (s' : σ)
    (hok : mergeInsertionSort c arr s = (.ok res, s')) : res.Perm arr := by
  obtain ⟨res2, s2, heq, hperm⟩ :=
    sortFJ_perm (c := c) (arr.length + 1) arr s (by omega) hnd
  rw [mergeInsertionSort] at hok
  rw [heq] at hok
  have h1 : (Except.ok res2 : Except SortError (List α)) = .ok res :=
    congrArg Prod.fst hok
  have hres : res2 = res := by injection h1
  exact hres ▸ hperm

/-- Witness for C10: a comparator that always answers `1` still yields a
permutation of the input. -/
theorem sort_result_perm_witness :
    (mergeInsertionSort (logComp fun _ _ : Nat => true) [5, 1, 4] []).1 =
      .ok [4, 5, 1] ∧ ([4, 5, 1] : List Nat).Perm [5, 1, 4] := by
  constructor
  · rfl
  · exact sort_result_perm (logComp fun _ _ : Nat => true) [5, 1, 4] []
      (by decide) [4, 5, 1] [(5, 1), (4, 5)] rfl

/-! ## C1: the insertion loop keeps the chain sorted -/

set_option maxHeartbeats 1000000 in
/-- Run over an order-respecting comparator, the insertion loop inserts
every pending value at its correct place: the chain stays ascending, and
the final chain holds the old chain items plus all pending values. -/
theorem insertLoop_sorted [LinearOrder α] [DecidableEq α] {σ : Type v}
    {c : CompM α σ}
    (hq : ∀ (a b : α) (s : σ), (c.query a b s).1 = decide (a < b)) :
    ∀ (groups chain : List (SortingPair α)) (s : σ),
      (chain.map (·.item) ++ groups.map pendVal).Nodup →
      (chain.map (·.item)).Sorted (· < ·) →
      (∀ g ∈ groups, ∀ y, g.smaller = some y →
        g.item ∈ chain.map (·.item) ∧ y < g.item) →
      ∃ chainF s', insertLoop c groups chain s = (.ok chainF, s') ∧
        (chainF.map (·.item)).Perm
          (chain.map (·.item) ++ groups.map pendVal) ∧
        (chainF.map (·.item)).Sorted (· < ·)
  | [], chain, s, _, hsort, _ => ⟨chain, s, rfl, by simp, hsort⟩
  | pair :: rest, chain, s, hnd, hsort, hx => by
    have hdisj := (List.nodup_append.mp hnd).2.2
    have hv : pendVal pair ∉ chain.map (·.item) := by
      intro hmem
      exact hdisj hmem (by
        rw [List.map_cons]
        exact List.mem_cons_self _ _)
    cases hsm : pair.smaller with
    | none =>
      have hpv : pendVal pair = pair.item := by rw [pendVal, hsm]; rfl
      obtain ⟨idx, s', heq, hle, htake, hdrop⟩ := binInsertIdx_sorted hq
        (chain.map (·.item)) pair.item hsort (hpv ▸ hv) s
      have hitems : (clearSmaller (splice chain idx ⟨pair.item, none⟩)
          pair.item).map (·.item) =
          splice (chain.map (·.item)) idx pair.item := by
        rw [clearSmaller_map_item, splice_map]
      have hsort' : ((clearSmaller (splice chain idx ⟨pair.item, none⟩)
          pair.item).map (·.item)).Sorted (· < ·) := by
        rw [hitems]
        exact splice_sorted _ idx _ hsort htake hdrop
      have hpermstep : ((clearSmaller (splice chain idx ⟨pair.item, none⟩)
          pair.item).map (·.item) ++ rest.map pendVal).Perm
          (chain.map (·.item) ++ (pair :: rest).map pendVal) := by
        rw [hitems, List.map_cons, hpv]
        refine ((splice_perm (chain.map (·.item)) idx pair.item).append_right
          (rest.map pendVal)).trans ?_
        exact List.perm_middle.symm
      have hmemstep : ∀ x, x ∈ chain.map (·.item) →
          x ∈ (clearSmaller (splice chain idx ⟨pair.item, none⟩)
            pair.item).map (·.item) := by
        intro x hxm
        rw [hitems]
        exact (splice_perm _ idx _).mem_iff.mpr (List.mem_cons_of_mem _ hxm)
      obtain ⟨chainF, s'', heq2, hpermF, hsortF⟩ := insertLoop_sorted hq rest
        (clearSmaller (splice chain idx ⟨pair.item, none⟩) pair.item) s'
        (hpermstep.nodup_iff.mpr hnd) hsort'
        (by
          intro g hg y hgy
          obtain ⟨hmem, hlt⟩ := hx g (List.mem_cons_of_mem _ hg) y hgy
          exact ⟨hmemstep _ hmem, hlt⟩)
      refine ⟨chainF, s'', ?_, hpermF.trans hpermstep, hsortF⟩
      simp only [insertLoop, hsm]
      rw [heq]
      exact heq2
    | some y =>
      have hpv : pendVal pair = y := by rw [pendVal, hsm]; rfl
      obtain ⟨hpmem, hylt⟩ := hx pair (List.mem_cons_self _ _) y hsm
      -- the position of the bounding slot in the chain
      have hexists : ∃ v ∈ chain, (v.item == pair.item) = true := by
        obtain ⟨v, hv1, hv2⟩ := List.mem_map.mp hpmem
        exact ⟨v, hv1, by simp [hv2]⟩
      set pairIdx := chain.findIdx fun v => v.item == pair.item with hpidx
      have hplen : pairIdx < chain.length :=
        List.findIdx_lt_length_of_exists hexists
      have hmlen2 : pairIdx < (chain.map (·.item)).length := by
        rw [List.length_map]
        exact hplen
      have hpitem : (chain.map (·.item))[pairIdx] = pair.item := by
        rw [List.getElem_map]
        have := @List.findIdx_getElem _ (fun v => v.item == pair.item)
          chain hplen
        simpa using this
      have hsearchsort : ((chain.take pairIdx).map (·.item)).Sorted (· < ·) := by
        rw [List.map_take]
        exact List.Pairwise.sublist (List.take_sublist _ _) hsort
      have hysearch : y ∉ ((chain.take pairIdx).map (·.item)) := by
        intro hmem
        refine (hpv ▸ hv) ?_
        rw [List.map_take] at hmem
        exact List.mem_of_mem_take hmem
      obtain ⟨idx, s', heq, hle, htake, hdrop⟩ := binInsertIdx_sorted hq
        ((chain.take pairIdx).map (·.item)) y hsearchsort hysearch s
      have hlen2 : ((chain.take pairIdx).map (·.item)).length = pairIdx := by
        rw [List.length_map, List.length_take]
        omega
      have hip : idx ≤ pairIdx := by omega
      have hmaplen : (chain.map (·.item)).length = chain.length :=
        List.length_map _ _
      -- the separating properties over the whole chain
      have htake' : ∀ x ∈ (chain.map (·.item)).take idx, x < y := by
        intro x hxm
        refine htake x ?_
        rw [List.map_take, List.take_take]
        rw [show idx ⊓ pairIdx = idx by omega]
        exact hxm
      have hdrop' : ∀ x ∈ (chain.map (·.item)).drop idx, y < x := by
        intro x hxm
        have hsplit : chain.map (·.item) =
            (chain.map (·.item)).take pairIdx ++
            (chain.map (·.item)).drop pairIdx :=
          (List.take_append_drop _ _).symm
        rw [hsplit, List.drop_append_of_le_length (by
          rw [List.length_take]; omega)] at hxm
        rcases List.mem_append.mp hxm with hxm | hxm
        · refine hdrop x ?_
          rw [List.map_take]
          exact hxm
        · have hdd : (chain.map (·.item)).drop pairIdx =
              pair.item :: (chain.map (·.item)).drop (pairIdx + 1) := by
            rw [List.drop_eq_getElem_cons (by rw [List.length_map]; exact hplen)]
            rw [hpitem]
          rw [hdd] at hxm
          rcases List.mem_cons.mp hxm with hxm | hxm
          · exact hxm ▸ hylt
          · have hpair : List.Pairwise (· < ·)
                ((chain.map (·.item)).drop pairIdx) :=
              List.Pairwise.sublist (List.drop_sublist _ _) hsort
            rw [hdd, List.pairwise_cons] at hpair
            exact lt_trans hylt (hpair.1 x hxm)
      have hitems : (clearSmaller (splice chain idx ⟨y, none⟩)
          pair.item).map (·.item) =
          splice (chain.map (·.item)) idx y := by
        rw [clearSmaller_map_item, splice_map]
      have hsort' : ((clearSmaller (splice chain idx ⟨y, none⟩)
          pair.item).map (·.item)).Sorted (· < ·) := by
        rw [hitems]
        exact splice_sorted _ idx _ hsort htake' hdrop'
      have hpermstep : ((clearSmaller (splice chain idx ⟨y, none⟩)
          pair.item).map (·.item) ++ rest.map pendVal).Perm
          (chain.map (·.item) ++ (pair :: rest).map pendVal) := by
        rw [hitems, List.map_cons, hpv]
        refine ((splice_perm (chain.map (·.item)) idx y).append_right
          (rest.map pendVal)).trans ?_
        exact List.perm_middle.symm
      have hmemstep : ∀ x, x ∈ chain.map (·.item) →
          x ∈ (clearSmaller (splice chain idx ⟨y, none⟩)
            pair.item).map (·.item) := by
        intro x hxm
        rw [hitems]
        exact (splice_perm _ idx _).mem_iff.mpr (List.mem_cons_of_mem _ hxm)
      obtain ⟨chainF, s'', heq2, hpermF, hsortF⟩ := insertLoop_sorted hq rest
        (clearSmaller (splice chain idx ⟨y, none⟩) pair.item) s'
        (hpermstep.nodup_iff.mpr hnd) hsort'
        (by
          intro g hg y' hgy
          obtain ⟨hmem, hlt⟩ := hx g (List.mem_cons_of_mem _ hg) y' hgy
          exact ⟨hmemstep _ hmem, hlt⟩)
      refine ⟨chainF, s'', ?_, hpermF.trans hpermstep, hsortF⟩
      simp only [insertLoop, hsm]
      rw [heq]
      exact heq2

/-- Over an order-respecting comparator, each pairing comparison stores
the pair as `(larger, smaller)`. -/
theorem buildPairs_smaller_lt [LinearOrder α] {σ : Type v} {c : CompM α σ}
    (hq : ∀ (a b : α) (s : σ), (c.query a b s).1 = decide (a < b)) :
    ∀ (arr : List α) (s : σ), arr.Nodup →
      ∀ p ∈ (buildPairs c arr s).1, p.2 < p.1
  | [], _, _ => by simp [buildPairs]
  | [_], _, _ => by simp [buildPairs]
  | a :: b :: rest, s, hnd => by
    intro p hp
    have hab : a ≠ b := by
      have := (List.nodup_cons.mp hnd).1
      intro h
      exact this (h ▸ List.mem_cons_self b rest)
    have hrest : rest.Nodup :=
      (List.nodup_cons.mp (List.nodup_cons.mp hnd).2).2
    have hp' : p = (if (c.query a b s).1 then (b, a) else (a, b)) ∨
        p ∈ (buildPairs c rest (c.query a b s).2).1 := List.mem_cons.mp hp
    rcases hp' with hp' | hp'
    · by_cases hcomp : a < b
      · have hval : (c.query a b s).1 = true := by
          rw [hq]
          simpa using hcomp
        rw [hp', hval, if_pos rfl]
        exact hcomp
      · have hval : (c.query a b s).1 = false := by
          rw [hq]
          simpa using hcomp
        rw [hp', hval]
        simp only [Bool.false_eq_true, if_false]
        exact lt_of_le_of_ne (not_lt.mp hcomp) (Ne.symm hab)
    · exact buildPairs_smaller_lt hq rest _ hrest p hp'

set_option maxHeartbeats 4000000 in
/-- The main correctness theorem: over an order-respecting comparator,
the sort succeeds on pairwise-distinct items and returns the ascending
permutation of the input. -/
theorem sortFJ_sorted [LinearOrder α] [DecidableEq α] {σ : Type v}
    {c : CompM α σ}
    (hq : ∀ (a b : α) (s : σ), (c.query a b s).1 = decide (a < b)) :
    ∀ (fuel : Nat) (arr : List α) (s : σ), arr.length < fuel → arr.Nodup →
      ∃ res s', sortFJ c fuel arr s = (.ok res, s') ∧ res.Perm arr ∧
        res.Sorted (· < ·)
  | 0, arr, _, hf, _ => absurd hf (by omega)
  | _ + 1, [], s, _, _ => ⟨[], s, rfl, List.Perm.refl [], List.sorted_nil⟩
  | _ + 1, [a], s, _, _ =>
    ⟨[a], s, rfl, List.Perm.refl [a], List.sorted_singleton a⟩
  | fuel + 1, a :: b :: [], s, _, hnd => by
    have hdd : (a :: b :: []).dedup.length = (a :: b :: []).length :=
      (nodup_iff_dedup_length _).mp hnd
    have hab : a ≠ b := by
      have := (List.nodup_cons.mp hnd).1
      intro h
      exact this (h ▸ List.mem_cons_self b [])
    simp only [sortFJ]
    rw [if_neg (by omega)]
    refine ⟨_, _, rfl, ?_, ?_⟩
    · by_cases hcomp : (c.query a b s).1
      · rw [if_pos hcomp]
      · rw [if_neg hcomp]
        exact List.Perm.swap a b []
    · by_cases hcomp : a < b
      · have hval : (c.query a b s).1 = true := by rw [hq]; simpa using hcomp
        rw [hval, if_pos rfl]
        simp [List.sorted_cons, hcomp]
      · have hval : (c.query a b s).1 = false := by rw [hq]; simpa using hcomp
        rw [hval]
        simp only [Bool.false_eq_true, if_false]
        have : b < a := lt_of_le_of_ne (not_lt.mp hcomp) (Ne.symm hab)
        simp [List.sorted_cons, this]
  | fuel + 1, a :: b :: rr :: rest', s, hf, hnd => by
    have hdd : (a :: b :: rr :: rest').dedup.length =
        (a :: b :: rr :: rest').length := (nodup_iff_dedup_length _).mp hnd
    simp only [sortFJ]
    rw [if_neg (by omega)]
    have hflat := buildPairs_flat_perm (c := c) (a :: b :: rr :: rest') s
    have hflatnd : ((buildPairs c (a :: b :: rr :: rest') s).1.map Prod.fst ++
        (buildPairs c (a :: b :: rr :: rest') s).1.map Prod.snd).Nodup :=
      hflat.nodup_iff.mpr
        (List.Nodup.sublist (List.take_sublist _ _) hnd)
    have hkeysnd : ((buildPairs c (a :: b :: rr :: rest') s).1.map
        Prod.fst).Nodup := (List.nodup_append.mp hflatnd).1
    have hpairs := buildPairs_smaller_lt hq (a :: b :: rr :: rest') s hnd
    obtain ⟨larger, s2, heqrec, hpermL, hsortL⟩ := sortFJ_sorted hq fuel
      ((buildPairs c (a :: b :: rr :: rest') s).1.map Prod.fst)
      (buildPairs c (a :: b :: rr :: rest') s).2
      (by
        rw [List.length_map, buildPairs_length]
        simp only [List.length_cons] at hf ⊢
        omega)
      hkeysnd
    rw [heqrec]
    match larger, hpermL, hsortL with
    | [], hpermL, _ =>
      exfalso
      have hlen := hpermL.length_eq
      rw [List.length_map, buildPairs_length] at hlen
      simp only [List.length_nil, List.length_cons] at hlen
      omega
    | l0 :: ltail, hpermL, hsortL =>
      simp only [List.map_cons]
      have hl0keys : l0 ∈ (buildPairs c (a :: b :: rr :: rest') s).1.map
          Prod.fst := hpermL.mem_iff.mp (List.mem_cons_self _ _)
      obtain ⟨y1, hy1⟩ := Option.isSome_iff_exists.mp
        (lookup_isSome_of_mem_keys _ l0 hl0keys)
      rw [hy1]
      simp only
      set prs := (buildPairs c (a :: b :: rr :: rest') s).1 with hprs
      set restChain := ltail.map
        (fun l => (⟨l, prs.lookup l⟩ : SortingPair α)) with hrestChain
      have hchainitems : ((⟨y1, none⟩ : SortingPair α) ::
          ⟨l0, none⟩ :: restChain).map (·.item) = y1 :: l0 :: ltail := by
        simp only [List.map_cons, hrestChain, List.map_map]
        congr 1
        congr 1
        rw [show ((fun (x : SortingPair α) => x.item) ∘
          fun l => (⟨l, prs.lookup l⟩ : SortingPair α)) = id from rfl]
        exact List.map_id ltail
      have hpendRest : restChain.map pendVal =
          ltail.map (fun l => (prs.lookup l).getD l) := by
        rw [hrestChain, List.map_map]
        rfl
      have hlookupL : ((l0 :: ltail).map
          (fun k => ((prs.lookup k).getD k))).Perm (prs.map Prod.snd) := by
        rw [← map_lookup_keys prs hkeysnd]
        exact hpermL.map _
      have hy1v : (prs.lookup l0).getD l0 = y1 := by rw [hy1]; rfl
      have hy1l0 : y1 < l0 := hpairs (l0, y1) (lookup_mem prs l0 y1 hy1)
      have hsortchain : (y1 :: l0 :: ltail).Sorted (· < ·) := by
        rw [List.sorted_cons]
        refine ⟨?_, hsortL⟩
        intro z hz
        rcases List.mem_cons.mp hz with hz | hz
        · exact hz ▸ hy1l0
        · exact lt_trans hy1l0 ((List.sorted_cons.mp hsortL).1 z hz)
      have hrestx : ∀ g ∈ restChain, ∀ y', g.smaller = some y' →
          g.item ∈ y1 :: l0 :: ltail ∧ y' < g.item := by
        intro g hg y' hgy
        obtain ⟨l, hl, rfl⟩ := List.mem_map.mp hg
        have hl' : prs.lookup l = some y' := hgy
        refine ⟨List.mem_cons_of_mem _ (List.mem_cons_of_mem _ hl), ?_⟩
        exact hpairs (l, y') (lookup_mem prs l y' hl')
      have hkv : ((y1 :: l0 :: ltail) ++
          ltail.map (fun k => ((prs.lookup k).getD k))).Perm
          ((a :: b :: rr :: rest').take
            (2 * ((a :: b :: rr :: rest').length / 2))) := by
        have h1 : ((y1 :: l0 :: ltail) ++
            ltail.map (fun k => ((prs.lookup k).getD k))).Perm
            ((l0 :: ltail) ++ y1 ::
              ltail.map (fun k => ((prs.lookup k).getD k))) := by
          exact (@List.perm_middle _ y1 (l0 :: ltail)
            (ltail.map (fun k => ((prs.lookup k).getD k)))).symm
        refine h1.trans ?_
        have h2 : (y1 :: ltail.map (fun k => ((prs.lookup k).getD k))).Perm
            (prs.map Prod.snd) := by
          rw [← hy1v]
          exact hlookupL
        exact (hpermL.append h2).trans hflat
      by_cases hodd : (a :: b :: rr :: rest').length % 2 = 1
      · rw [if_pos hodd]
        have hlast : (a :: b :: rr :: rest').getLastD a =
            (a :: b :: rr :: rest').getLast (by simp) := by
          rw [List.getLastD_eq_getLast?, List.getLast?_eq_getLast _ (by simp)]
          rfl
        have hsplit : (a :: b :: rr :: rest').take
            (2 * ((a :: b :: rr :: rest').length / 2)) ++
            [(a :: b :: rr :: rest').getLastD a] = a :: b :: rr :: rest' := by
          rw [hlast]
          have hdl : 2 * ((a :: b :: rr :: rest').length / 2) =
              (a :: b :: rr :: rest').length - 1 := by omega
          rw [hdl, ← List.dropLast_eq_take]
          exact List.dropLast_append_getLast _
        have hperm1 : ((((⟨y1, none⟩ : SortingPair α) :: ⟨l0, none⟩ ::
            restChain).map (fun p : SortingPair α => p.item)) ++
            (((makeGroups (List.drop 2 ((⟨y1, none⟩ : SortingPair α) ::
              ⟨l0, none⟩ :: restChain) ++
              [(⟨(a :: b :: rr :: rest').getLastD a, none⟩ : SortingPair α)])).map
              Prod.snd).map pendVal)).Perm (a :: b :: rr :: rest') := by
          rw [hchainitems]
          refine (List.Perm.append_left _
            ((makeGroups_snd_perm _).map pendVal)).trans ?_
          simp only [List.drop_succ_cons, List.drop_zero, List.map_append,
            hpendRest]
          rw [← List.append_assoc]
          refine (hkv.append_right _).trans ?_
          rw [show (List.map pendVal
            [(⟨(a :: b :: rr :: rest').getLastD a, none⟩ : SortingPair α)]) =
            [(a :: b :: rr :: rest').getLastD a] from rfl]
          rw [hsplit]
        obtain ⟨chainF, s3, heqIL, hpermF, hsortF⟩ := insertLoop_sorted hq
          ((makeGroups (List.drop 2 ((⟨y1, none⟩ : SortingPair α) ::
            ⟨l0, none⟩ :: restChain) ++
            [⟨(a :: b :: rr :: rest').getLastD a, none⟩])).map Prod.snd)
          ((⟨y1, none⟩ : SortingPair α) :: ⟨l0, none⟩ :: restChain) s2
          (hperm1.nodup_iff.mpr hnd)
          (by rw [hchainitems]; exact hsortchain)
          (by
            intro g hg y' hgy
            have hg' : g ∈ List.drop 2 ((⟨y1, none⟩ : SortingPair α) ::
                ⟨l0, none⟩ :: restChain) ++
                [(⟨(a :: b :: rr :: rest').getLastD a, none⟩ :
                  SortingPair α)] :=
              (makeGroups_snd_perm _).mem_iff.mp hg
            simp only [List.drop_succ_cons, List.drop_zero] at hg'
            rcases List.mem_append.mp hg' with hg' | hg'
            · obtain ⟨hmem, hlt⟩ := hrestx g hg' y' hgy
              exact ⟨by rw [hchainitems]; exact hmem, hlt⟩
            · rw [List.mem_singleton] at hg'
              rw [hg'] at hgy
              exact absurd hgy (by simp))
        rw [heqIL]
        exact ⟨chainF.map (·.item), s3, rfl, hpermF.trans hperm1, hsortF⟩
      · rw [if_neg hodd]
        have hsplit : (a :: b :: rr :: rest').take
            (2 * ((a :: b :: rr :: rest').length / 2)) =
            a :: b :: rr :: rest' := by
          have : 2 * ((a :: b :: rr :: rest').length / 2) =
              (a :: b :: rr :: rest').length := by omega
          rw [this, List.take_length]
        have hperm1 : ((((⟨y1, none⟩ : SortingPair α) :: ⟨l0, none⟩ ::
            restChain).map (fun p : SortingPair α => p.item)) ++
            (((makeGroups (List.drop 2 ((⟨y1, none⟩ : SortingPair α) ::
              ⟨l0, none⟩ :: restChain))).map
              Prod.snd).map pendVal)).Perm (a :: b :: rr :: rest') := by
          rw [hchainitems]
          refine (List.Perm.append_left _
            ((makeGroups_snd_perm _).map pendVal)).trans ?_
          simp only [List.drop_succ_cons, List.drop_zero, hpendRest]
          exact hsplit ▸ hkv
        obtain ⟨chainF, s3, heqIL, hpermF, hsortF⟩ := insertLoop_sorted hq
          ((makeGroups (List.drop 2 ((⟨y1, none⟩ : SortingPair α) ::
            ⟨l0, none⟩ :: restChain))).map Prod.snd)
          ((⟨y1, none⟩ : SortingPair α) :: ⟨l0, none⟩ :: restChain) s2
          (hperm1.nodup_iff.mpr hnd)
          (by rw [hchainitems]; exact hsortchain)
          (by
            intro g hg y' hgy
            have hg' : g ∈ List.drop 2 ((⟨y1, none⟩ : SortingPair α) ::
                ⟨l0, none⟩ :: restChain) :=
              (makeGroups_snd_perm _).mem_iff.mp hg
            simp only [List.drop_succ_cons, List.drop_zero] at hg'
            obtain ⟨hmem, hlt⟩ := hrestx g hg' y' hgy
            exact ⟨by rw [hchainitems]; exact hmem, hlt⟩)
        rw [heqIL]
        exact ⟨chainF.map (·.item), s3, rfl, hpermF.trans hperm1, hsortF⟩

/-- C1: on pairwise-distinct items with a comparator derived from a
strict total order, the sort succeeds and returns exactly the input
items arranged in ascending order. -/
theorem mergeInsertionSort_sorts [LinearOrder α] [DecidableEq α]
    {σ : Type v} {c : CompM α σ}
    (hq : ∀ (a b : α) (s : σ), (c.query a b s).1 = decide (a < b))
    (arr : List α) (s : σ) (hnd : arr.Nodup) :
    ∃ res s', mergeInsertionSort c arr s = (.ok res, s') ∧
      res.Perm arr ∧ res.Sorted (· < ·) :=
  sortFJ_sorted hq (arr.length + 1) arr s (by omega) hnd

/-- Witness for C1 at the concrete input `[3, 1, 2]`. -/
theorem mergeInsertionSort_sorts_witness :
    (mergeInsertionSort (logComp fun a b : Nat => decide (a < b))
      [3, 1, 2] []).1 = .ok [1, 2, 3] ∧
    ([1, 2, 3] : List Nat).Perm [3, 1, 2] ∧
    ([1, 2, 3] : List Nat).Sorted (· < ·) := by
  obtain ⟨res, s', heq, hperm, hsort⟩ := mergeInsertionSort_sorts
    (c := logComp fun a b : Nat => decide (a < b)) (fun a b s => rfl)
    [3, 1, 2] [] (by decide)
  have h1 : (Except.ok res : Except SortError (List Nat)) = .ok [1, 2, 3] :=
    congrArg Prod.fst (heq.symm.trans rfl)
  have hres : res = [1, 2, 3] := by injection h1
  subst hres
  exact ⟨congrArg Prod.fst heq, hperm, hsort⟩

/-! ## C2: the two-power logarithms -/

theorem log2fuel_spec : ∀ (fuel n : Nat), 1 ≤ n → n ≤ fuel →
    2 ^ log2fuel fuel n ≤ n ∧ n < 2 ^ (log2fuel fuel n + 1)
  | 0, n, h1, h2 => by omega
  | fuel + 1, n, h1, h2 => by
    by_cases hn : 2 ≤ n
    · have ih := log2fuel_spec fuel (n / 2) (by omega) (by omega)
      simp only [log2fuel, if_pos hn]
      rw [pow_succ, pow_succ]
      rw [pow_succ] at ih
      omega
    · simp only [log2fuel, if_neg hn]
      norm_num
      omega

theorem flog2_spec (n : Nat) (h : 1 ≤ n) :
    2 ^ flog2 n ≤ n ∧ n < 2 ^ (flog2 n + 1) :=
  log2fuel_spec n n h le_rfl

theorem flog2_eq (n c : Nat) (h1 : 2 ^ c ≤ n) (h2 : n < 2 ^ (c + 1)) :
    flog2 n = c := by
  have hp : 0 < 2 ^ c := Nat.pow_pos (by omega)
  obtain ⟨ha, hb⟩ := flog2_spec n (by omega)
  rcases Nat.lt_trichotomy (flog2 n) c with h | h | h
  · have hle : 2 ^ (flog2 n + 1) ≤ 2 ^ c := Nat.pow_le_pow_right (by omega) (by omega)
    omega
  · exact h
  · have hle : 2 ^ (c + 1) ≤ 2 ^ flog2 n := Nat.pow_le_pow_right (by omega) (by omega)
    omega

theorem clog2_le_iff (x c : Nat) (hx : 1 ≤ x) : clog2 x ≤ c ↔ x ≤ 2 ^ c := by
  unfold clog2
  by_cases h1 : x ≤ 1
  · rw [if_pos h1]
    have hp : 0 < 2 ^ c := Nat.pow_pos (by omega)
    constructor <;> intro <;> omega
  · rw [if_neg h1]
    obtain ⟨ha, hb⟩ := flog2_spec (x - 1) (by omega)
    constructor
    · intro h
      have hle : 2 ^ (flog2 (x - 1) + 1) ≤ 2 ^ c := Nat.pow_le_pow_right (by omega) h
      omega
    · intro h
      by_contra hc
      push_neg at hc
      have h2 : c ≤ flog2 (x - 1) := by omega
      have hle : 2 ^ c ≤ 2 ^ flog2 (x - 1) := Nat.pow_le_pow_right (by omega) h2
      omega

theorem clog2_lt_iff (x c : Nat) (hx : 1 ≤ x) : c < clog2 x ↔ 2 ^ c < x := by
  constructor
  · intro h
    by_contra hc
    push_neg at hc
    have h2 := (clog2_le_iff x c hx).mpr hc
    omega
  · intro h
    by_contra hc
    push_neg at hc
    have h2 := (clog2_le_iff x c hx).mp hc
    omega

theorem clog2_self_le (x : Nat) (hx : 1 ≤ x) : x ≤ 2 ^ clog2 x :=
  (clog2_le_iff x (clog2 x) hx).mp le_rfl

theorem clog2_mono {x y : Nat} (h : x ≤ y) : clog2 x ≤ clog2 y := by
  by_cases hx : x = 0
  · subst hx
    simp [clog2]
  · have hy : 1 ≤ y := by omega
    rw [clog2_le_iff x (clog2 y) (by omega)]
    exact le_trans h (clog2_self_le y hy)

theorem clog2_two_mul (x : Nat) (hx : 1 ≤ x) : clog2 (2 * x) = clog2 x + 1 := by
  apply le_antisymm
  · rw [clog2_le_iff _ _ (by omega), pow_succ]
    have h := clog2_self_le x hx
    omega
  · have h1 : clog2 x < clog2 (2 * x) := by
      rw [clog2_lt_iff _ _ (by omega)]
      by_cases hx1 : x = 1
      · subst hx1
        norm_num [clog2]
      · have hx2 : 2 ≤ x := by omega
        obtain ⟨ha, hb⟩ := flog2_spec (x - 1) (by omega)
        have hcl : clog2 x = flog2 (x - 1) + 1 := by
          unfold clog2
          rw [if_neg (by omega)]
        rw [hcl, pow_succ]
        omega
    omega

theorem two_pow_mod_three : ∀ L : Nat,
    (L % 2 = 0 → 2 ^ L % 3 = 1) ∧ (L % 2 = 1 → 2 ^ L % 3 = 2)
  | 0 => by norm_num
  | L + 1 => by
    obtain ⟨h1, h2⟩ := two_pow_mod_three L
    rw [pow_succ]
    constructor <;> intro h
    · have := h2 (by omega)
      omega
    · have := h1 (by omega)
      omega

theorem clog2_three_mul (n : Nat) (hn : 1 ≤ n) : clog2 (3 * n) = flog2 (6 * n) := by
  obtain ⟨ha, hb⟩ := flog2_spec (3 * n) (by omega)
  have hb2 : 3 * n < 2 ^ flog2 (3 * n) * 2 := by rw [pow_succ] at hb; exact hb
  have h6 : flog2 (6 * n) = flog2 (3 * n) + 1 := by
    apply flog2_eq
    · rw [pow_succ]
      omega
    · rw [pow_succ, pow_succ]
      omega
  have hne : 2 ^ flog2 (3 * n) ≠ 3 * n := by
    intro he
    obtain ⟨m1, m2⟩ := two_pow_mod_three (flog2 (3 * n))
    rcases Nat.mod_two_eq_zero_or_one (flog2 (3 * n)) with h | h
    · have := m1 h
      omega
    · have := m2 h
      omega
  rw [h6]
  apply le_antisymm
  · rw [clog2_le_iff _ _ (by omega), pow_succ]
    omega
  · have hlt : flog2 (3 * n) < clog2 (3 * n) := by
      rw [clog2_lt_iff _ _ (by omega)]
      omega
    omega

/-! ## C2: the group-size partial sums -/

theorem groupSizeSum_pair : ∀ k : Nat,
    groupSizeSum k + groupSizeSum (k + 1) + 2 = 2 ^ (k + 2)
  | 0 => by decide
  | k + 1 => by
    have ih := groupSizeSum_pair k
    have hub : groupSize (k + 1) ≤ 2 ^ (k + 1) := (groupSize_bounds k).2
    have hd1 : groupSizeSum (k + 1) = groupSizeSum k + groupSize (k + 1) := rfl
    have hd2 : groupSizeSum (k + 1 + 1) = groupSizeSum (k + 1) + groupSize (k + 2) := rfl
    have hgs : groupSize (k + 2) = 2 ^ (k + 2) - groupSize (k + 1) := rfl
    have hpow : (2 : Nat) ^ (k + 1 + 2) = 2 ^ (k + 2) * 2 := by ring
    have hpow2 : (2 : Nat) ^ (k + 2) = 2 ^ (k + 1) * 2 := by ring
    omega

theorem groupSize_closed : ∀ k : Nat,
    (k % 2 = 0 → 3 * groupSize k + 2 = 2 ^ (k + 1)) ∧
    (k % 2 = 1 → 3 * groupSize k = 2 ^ (k + 1) + 2)
  | 0 => by decide
  | k + 1 => by
    obtain ⟨h0, h1⟩ := groupSize_closed k
    have hub : groupSize k ≤ 2 ^ k := by
      cases k with
      | zero => simp [groupSize]
      | succ n => exact (groupSize_bounds n).2
    have hgs : groupSize (k + 1) = 2 ^ (k + 1) - groupSize k := rfl
    have hpow : (2 : Nat) ^ (k + 1) = 2 ^ k * 2 := by ring
    have hpow2 : (2 : Nat) ^ (k + 2) = 2 ^ k * 2 * 2 := by ring
    have hpow3 : (2 : Nat) ^ (k + 1 + 1) = 2 ^ k * 2 * 2 := by ring
    constructor <;> intro h
    · have := h1 (by omega)
      omega
    · have := h0 (by omega)
      omega

theorem groupSizeSum_closed : ∀ k : Nat,
    (k % 2 = 0 → 3 * groupSizeSum k + 4 = 2 ^ (k + 2)) ∧
    (k % 2 = 1 → 3 * groupSizeSum k + 2 = 2 ^ (k + 2))
  | 0 => by decide
  | k + 1 => by
    obtain ⟨h0, h1⟩ := groupSizeSum_closed k
    obtain ⟨g0, g1⟩ := groupSize_closed (k + 1)
    have hd1 : groupSizeSum (k + 1) = groupSizeSum k + groupSize (k + 1) := rfl
    have hpow : (2 : Nat) ^ (k + 1 + 2) = 2 ^ (k + 2) * 2 := by ring
    have hpow2 : (2 : Nat) ^ (k + 1 + 1) = 2 ^ (k + 2) := by ring
    constructor <;> intro h
    · have ha := h1 (by omega)
      have hb := g0 h
      omega
    · have ha := h0 (by omega)
      have hb := g1 h
      omega

theorem groupSizeSum_lower : ∀ k : Nat, 2 * k ≤ groupSizeSum k
  | 0 => by decide
  | k + 1 => by
    have ih := groupSizeSum_lower k
    have h2 : 2 ≤ groupSize (k + 1) := (groupSize_bounds k).1
    have hd : groupSizeSum (k + 1) = groupSizeSum k + groupSize (k + 1) := rfl
    omega

theorem groupOfAux_spec : ∀ (fuel k j : Nat), 1 ≤ k → groupSizeSum (k - 1) ≤ j →
    j < groupSizeSum (k - 1 + fuel) →
    1 ≤ groupOfAux fuel k j ∧ groupSizeSum (groupOfAux fuel k j - 1) ≤ j ∧
      j < groupSizeSum (groupOfAux fuel k j)
  | 0, k, j, hk, hlo, hhi => by
    rw [Nat.add_zero] at hhi
    omega
  | fuel + 1, k, j, hk, hlo, hhi => by
    by_cases hcase : j < groupSizeSum k
    · simp only [groupOfAux, if_pos hcase]
      exact ⟨hk, hlo, hcase⟩
    · simp only [groupOfAux, if_neg hcase]
      apply groupOfAux_spec fuel (k + 1) j (by omega)
      · have he : k + 1 - 1 = k := by omega
        rw [he]
        omega
      · have he : k + 1 - 1 + fuel = k - 1 + (fuel + 1) := by omega
        rw [he]
        exact hhi

theorem groupOf_spec (j : Nat) : 1 ≤ groupOf j ∧
    groupSizeSum (groupOf j - 1) ≤ j ∧ j < groupSizeSum (groupOf j) := by
  apply groupOfAux_spec (j + 2) 1 j (by omega) (by simp [groupSizeSum])
  have h := groupSizeSum_lower (j + 2)
  have he : 1 - 1 + (j + 2) = j + 2 := by omega
  rw [he]
  omega

theorem groupSizeSum_le_of_le {a b : Nat} (h : a ≤ b) :
    groupSizeSum a ≤ groupSizeSum b := by
  induction b with
  | zero =>
    have ha : a = 0 := by omega
    subst ha
    exact le_rfl
  | succ n ih =>
    by_cases hab : a = n + 1
    · subst hab
      exact le_rfl
    · have h2 := ih (by omega)
      have hd : groupSizeSum (n + 1) = groupSizeSum n + groupSize (n + 1) := rfl
      omega

theorem groupOf_eq (j k : Nat) (hk : 1 ≤ k) (hlo : groupSizeSum (k - 1) ≤ j)
    (hhi : j < groupSizeSum k) : groupOf j = k := by
  obtain ⟨hg1, hglo, hghi⟩ := groupOf_spec j
  rcases Nat.lt_trichotomy (groupOf j) k with h | h | h
  · have h2 : groupSizeSum (groupOf j) ≤ groupSizeSum (k - 1) :=
      groupSizeSum_le_of_le (by omega)
    omega
  · exact h
  · have h2 : groupSizeSum k ≤ groupSizeSum (groupOf j - 1) :=
      groupSizeSum_le_of_le (by omega)
    omega

theorem groupOf_add_three_le (j : Nat) : groupOf j + 3 ≤ clog2 (6 * j + 9) := by
  obtain ⟨hg1, hglo, hghi⟩ := groupOf_spec j
  obtain ⟨t0, t1⟩ := groupSizeSum_closed (groupOf j - 1)
  have he : groupOf j - 1 + 2 = groupOf j + 1 := by omega
  have hpow : 2 ^ (groupOf j + 1) ≤ 3 * groupSizeSum (groupOf j - 1) + 4 := by
    rcases Nat.mod_two_eq_zero_or_one (groupOf j - 1) with h | h
    · have := t0 h
      rw [he] at this
      omega
    · have := t1 h
      rw [he] at this
      omega
  have hlt : 2 ^ (groupOf j + 2) < 6 * j + 9 := by
    have e : (2 : Nat) ^ (groupOf j + 2) = 2 ^ (groupOf j + 1) * 2 := by ring
    omega
  have h2 := (clog2_lt_iff (6 * j + 9) (groupOf j + 2) (by omega)).mpr hlt
  omega

theorem insertBudgetFrom_succ : ∀ (d i : Nat),
    insertBudgetFrom (d + 1) i = insertBudgetFrom d i + (groupOf (i + d) + 1)
  | 0, i => by simp [insertBudgetFrom]
  | d + 1, i => by
    show (groupOf i + 1) + insertBudgetFrom (d + 1) (i + 1) =
      ((groupOf i + 1) + insertBudgetFrom d (i + 1)) + (groupOf (i + (d + 1)) + 1)
    rw [insertBudgetFrom_succ d (i + 1)]
    have he : i + 1 + d = i + (d + 1) := by omega
    rw [he]
    omega

theorem insertBudget_succ (p : Nat) :
    insertBudget (p + 1) = insertBudget p + (groupOf p + 1) := by
  unfold insertBudget
  rw [insertBudgetFrom_succ]
  simp

theorem insertBudgetFrom_split : ∀ (d1 d2 i : Nat),
    insertBudgetFrom (d1 + d2) i =
      insertBudgetFrom d1 i + insertBudgetFrom d2 (i + d1)
  | 0, d2, i => by simp [insertBudgetFrom]
  | d1 + 1, d2, i => by
    have ha : d1 + 1 + d2 = (d1 + d2) + 1 := by omega
    rw [ha]
    show (groupOf i + 1) + insertBudgetFrom (d1 + d2) (i + 1) = _
    rw [insertBudgetFrom_split d1 d2 (i + 1)]
    show _ = ((groupOf i + 1) + insertBudgetFrom d1 (i + 1)) +
      insertBudgetFrom d2 (i + (d1 + 1))
    have he : i + 1 + d1 = i + (d1 + 1) := by omega
    rw [he]
    omega

theorem insertBudgetFrom_const : ∀ (d i k : Nat),
    (∀ j, i ≤ j → j < i + d → groupOf j = k) →
    insertBudgetFrom d i = d * (k + 1)
  | 0, i, k, _ => by simp [insertBudgetFrom]
  | d + 1, i, k, H => by
    show (groupOf i + 1) + insertBudgetFrom d (i + 1) = _
    rw [insertBudgetFrom_const d (i + 1) k (fun j h1 h2 => H j (by omega) (by omega))]
    rw [H i le_rfl (by omega)]
    ring

/-! ## C2: the closed form equals the comparison sum -/

theorem clog2_three_ge_two (n : Nat) (hn : 1 ≤ n) : 2 ≤ clog2 (3 * n) := by
  have h := (clog2_lt_iff (3 * n) 1 (by omega)).mpr (by omega)
  omega

theorem maxCompClosed_succ (n : Nat) (hn : 1 ≤ n) :
    maxCompClosed (n + 1) = maxCompClosed n + ((clog2 (3 * (n + 1)) : Int) - 2) := by
  obtain ⟨ha, hb⟩ := flog2_spec (6 * n) (by omega)
  obtain ⟨ha', hb'⟩ := flog2_spec (6 * (n + 1)) (by omega)
  have hC : clog2 (3 * n) = flog2 (6 * n) := clog2_three_mul n hn
  have hC' : clog2 (3 * (n + 1)) = flog2 (6 * (n + 1)) := clog2_three_mul (n + 1) (by omega)
  have hb2 : 6 * n < 2 ^ flog2 (6 * n) * 2 := by rw [pow_succ] at hb; exact hb
  have hb2' : 6 * (n + 1) < 2 ^ flog2 (6 * (n + 1)) * 2 := by
    rw [pow_succ] at hb'; exact hb'
  have hmono : flog2 (6 * n) ≤ flog2 (6 * (n + 1)) := by
    by_contra hcon
    push_neg at hcon
    have h2 : 2 ^ (flog2 (6 * (n + 1)) + 1) ≤ 2 ^ flog2 (6 * n) :=
      Nat.pow_le_pow_right (by omega) (by omega)
    rw [pow_succ] at h2
    omega
  have hstep : flog2 (6 * (n + 1)) ≤ flog2 (6 * n) + 1 := by
    by_contra hcon
    push_neg at hcon
    have h2 : 2 ^ (flog2 (6 * n) + 2) ≤ 2 ^ flog2 (6 * (n + 1)) :=
      Nat.pow_le_pow_right (by omega) (by omega)
    have h3 : (2 : Nat) ^ (flog2 (6 * n) + 2) = 2 ^ flog2 (6 * n) * 2 * 2 := by ring
    omega
  rcases Nat.eq_or_lt_of_le hmono with heq | hlt
  · unfold maxCompClosed
    rw [hC, hC', ← heq]
    push_cast
    ring
  · have heq : flog2 (6 * (n + 1)) = flog2 (6 * n) + 1 := by omega
    have htr1 : 2 ^ flog2 (6 * n) * 2 ≤ 6 * (n + 1) := by
      have h4 := ha'
      rw [heq, pow_succ] at h4
      exact h4
    obtain ⟨m1, m2⟩ := two_pow_mod_three (flog2 (6 * n))
    have hkeyN : 2 ^ flog2 (6 * n) / 3 + (flog2 (6 * n) + 1) / 2 + n =
        2 ^ (flog2 (6 * n) + 1) / 3 + flog2 (6 * n) / 2 := by
      have hp : (2 : Nat) ^ (flog2 (6 * n) + 1) = 2 ^ flog2 (6 * n) * 2 := by ring
      rcases Nat.mod_two_eq_zero_or_one (flog2 (6 * n)) with h | h
      · have := m1 h
        omega
      · have := m2 h
        omega
    have hkeyZ : ((2 ^ flog2 (6 * n) / 3 : Nat) : Int) +
        (((flog2 (6 * n) + 1) / 2 : Nat) : Int) + (n : Int) =
        ((2 ^ (flog2 (6 * n) + 1) / 3 : Nat) : Int) +
        ((flog2 (6 * n) / 2 : Nat) : Int) := by
      exact_mod_cast hkeyN
    unfold maxCompClosed
    rw [hC, hC', heq]
    have hc1 : ((n + 1 : Nat) : Int) = (n : Int) + 1 := by push_cast; ring
    have hc2 : ((flog2 (6 * n) + 1 : Nat) : Int) = (flog2 (6 * n) : Int) + 1 := by
      push_cast
      ring
    rw [hc1, hc2]
    linear_combination hkeyZ

theorem compSum_eq_closed : ∀ n : Nat, 1 ≤ n → (compSum n : Int) = maxCompClosed n
  | 0, h => absurd h (by omega)
  | 1, _ => by decide
  | n + 2, _ => by
    have ih := compSum_eq_closed (n + 1) (by omega)
    have hd : compSum (n + 2) = compSum (n + 1) + (clog2 (3 * (n + 2)) - 2) := rfl
    have hge : 2 ≤ clog2 (3 * (n + 2)) := clog2_three_ge_two (n + 2) (by omega)
    have hsucc := maxCompClosed_succ (n + 1) (by omega)
    have he : n + 1 + 1 = n + 2 := rfl
    rw [he] at hsucc
    rw [hsucc, ← ih, hd]
    have hcast : ((clog2 (3 * (n + 2)) - 2 : Nat) : Int) =
        (clog2 (3 * (n + 2)) : Int) - 2 := by omega
    push_cast
    omega

/-! ## C2: the recursion inequality for the budget -/

theorem key_budget : ∀ n : Nat, 3 ≤ n →
    n / 2 + compSum (n / 2) + insertBudget (n - n / 2 - 1) ≤ compSum n := by
  intro n
  induction n using Nat.strong_induction_on with
  | _ n ih =>
    intro h3
    by_cases h5 : n < 5
    · interval_cases n
      · decide
      · decide
    · obtain ⟨k, rfl⟩ : ∃ k, n = k + 2 := ⟨n - 2, by omega⟩
      have hk3 : 3 ≤ k := by omega
      have IH := ih k (by omega) hk3
      have hm : (k + 2) / 2 = k / 2 + 1 := by omega
      set m := k / 2 with hmdef
      set P := k - m - 1 with hPdef
      rw [hm]
      have hP : k + 2 - (m + 1) - 1 = P + 1 := by omega
      rw [hP]
      have hs1 : compSum (m + 1) = compSum m + (clog2 (3 * (m + 1)) - 2) := rfl
      have hg1 : 2 ≤ clog2 (3 * (m + 1)) := clog2_three_ge_two (m + 1) (by omega)
      have hb1 : insertBudget (P + 1) = insertBudget P + (groupOf P + 1) :=
        insertBudget_succ P
      have hs2 : compSum (k + 2) = compSum (k + 1) + (clog2 (3 * (k + 2)) - 2) := rfl
      have hs3 : compSum (k + 1) = compSum k + (clog2 (3 * (k + 1)) - 2) := rfl
      have hg2 : 2 ≤ clog2 (3 * (k + 1)) := clog2_three_ge_two (k + 1) (by omega)
      have hg3 : 2 ≤ clog2 (3 * (k + 2)) := clog2_three_ge_two (k + 2) (by omega)
      rw [hs2, hs3, hs1, hb1]
      rcases Nat.mod_two_eq_zero_or_one k with hpar | hpar
      · have hk2m : k = 2 * m := by omega
        have hPm : P = m - 1 := by omega
        have he1 : 3 * (k + 2) = 2 * (3 * (m + 1)) := by omega
        have he2 : clog2 (3 * (k + 2)) = clog2 (3 * (m + 1)) + 1 := by
          rw [he1]
          exact clog2_two_mul (3 * (m + 1)) (by omega)
        have hgb : groupOf (m - 1) + 3 ≤ clog2 (6 * (m - 1) + 9) :=
          groupOf_add_three_le (m - 1)
        have he3 : 6 * (m - 1) + 9 = 3 * (k + 1) := by omega
        rw [he3] at hgb
        rw [← hPm] at hgb
        omega
      · have hk2m : k = 2 * m + 1 := by omega
        have hPm : P = m := by omega
        have he1 : 3 * (k + 1) = 2 * (3 * (m + 1)) := by omega
        have he2 : clog2 (3 * (k + 1)) = clog2 (3 * (m + 1)) + 1 := by
          rw [he1]
          exact clog2_two_mul (3 * (m + 1)) (by omega)
        have hgb : groupOf m + 3 ≤ clog2 (6 * m + 9) := groupOf_add_three_le m
        have he3 : 6 * m + 9 = 3 * (k + 2) := by omega
        rw [he3] at hgb
        rw [← hPm] at hgb
        omega

/-! ## C2: basic counting lemmas -/

theorem countDistinctUnord_le_length [DecidableEq α] :
    ∀ log : List (α × α), countDistinctUnord log ≤ log.length
  | [] => le_rfl
  | p :: ps => by
    have ih := countDistinctUnord_le_length ps
    show (if ps.any fun q => p == q || p == (q.2, q.1) then countDistinctUnord ps
      else countDistinctUnord ps + 1) ≤ ps.length + 1
    split <;> omega

theorem maxComparisons_nat (m : Nat) (hm : 1 ≤ m) :
    mergeInsertionMaxComparisons (m : Int) = .ok (maxCompClosed m) := by
  unfold mergeInsertionMaxComparisons
  rw [if_neg (by omega), if_neg (by exact_mod_cast by omega)]
  rw [Int.toNat_natCast]
  rfl

/-! ## C2: cost of the binary search -/

theorem clog2_succ_of_odd (x : Nat) (h3 : 3 ≤ x) (hodd : x % 2 = 1) :
    clog2 (x + 1) ≤ clog2 x := by
  rw [clog2_le_iff _ _ (by omega)]
  have h1 : x ≤ 2 ^ clog2 x := clog2_self_le x (by omega)
  have h2 : 2 ≤ clog2 x := by
    have := (clog2_lt_iff x 1 (by omega)).mpr (by omega)
    omega
  have h4 : 2 ^ clog2 x % 2 = 0 := by
    have he : (2 : Nat) ^ clog2 x = 2 ^ (clog2 x - 1) * 2 := by
      rw [← pow_succ]
      congr 1
      omega
    omega
  omega

theorem clog2_step (d e : Nat) (he : 2 * e ≤ d + 1) :
    clog2 (e + 1) + 1 ≤ clog2 (d + 2) := by
  have h2 : clog2 (2 * (e + 1)) = clog2 (e + 1) + 1 := clog2_two_mul (e + 1) (by omega)
  by_cases hc : 2 * e ≤ d
  · have hm : clog2 (2 * (e + 1)) ≤ clog2 (d + 2) := clog2_mono (by omega)
    omega
  · have hd : 2 * e = d + 1 := by omega
    have hodd : (d + 2) % 2 = 1 := by omega
    have hd1 : 1 ≤ d := by omega
    have hs := clog2_succ_of_odd (d + 2) (by omega) hodd
    have he2 : 2 * (e + 1) = d + 2 + 1 := by omega
    rw [he2] at h2
    omega

theorem binSearchLoop_cost (cmp : α → α → Bool) (arr : List α) (item : α) :
    ∀ (fuel : Nat) (l r : Int) (s : List (α × α)),
      (binSearchLoop (logComp cmp) arr item fuel l r s).2.length ≤
        s.length + clog2 ((r + 1 - l).toNat + 1)
  | 0, l, r, s => by simp [binSearchLoop]
  | fuel + 1, l, r, s => by
    by_cases hle : l ≤ r
    · simp only [binSearchLoop, if_pos hle]
      split
      · exact Nat.le_add_right s.length _
      · next am harr =>
        simp only [logComp]
        have hL : (r + 1 - l).toNat + 1 = (r - l).toNat + 2 := by omega
        rw [hL]
        split
        · have ih := binSearchLoop_cost cmp arr item fuel l (l + (r - l) / 2 - 1)
            (s ++ [(item, am)])
          have hrange : (l + (r - l) / 2 - 1 + 1 - l).toNat = ((r - l) / 2).toNat := by
            omega
          rw [hrange, List.length_append, List.length_cons, List.length_nil] at ih
          simp only [logComp] at ih
          have hstep := clog2_step ((r - l).toNat) (((r - l) / 2).toNat) (by omega)
          omega
        · have ih := binSearchLoop_cost cmp arr item fuel (l + (r - l) / 2 + 1) r
            (s ++ [(item, am)])
          have hrange : (r + 1 - (l + (r - l) / 2 + 1)).toNat =
              (r - l).toNat - ((r - l) / 2).toNat := by omega
          rw [hrange, List.length_append, List.length_cons, List.length_nil] at ih
          simp only [logComp] at ih
          have hstep := clog2_step ((r - l).toNat)
            ((r - l).toNat - ((r - l) / 2).toNat) (by omega)
          omega
    · simp only [binSearchLoop, if_neg hle]
      exact Nat.le_add_right s.length _

theorem binInsertIdx_cost [DecidableEq α] (cmp : α → α → Bool) (arr : List α)
    (item : α) (s : List (α × α)) :
    (binInsertIdx (logComp cmp) arr item s).2.length ≤
      s.length + clog2 (arr.length + 1) := by
  match arr with
  | [] => simp [binInsertIdx]
  | [x] =>
    rw [binInsertIdx]
    split
    · simp
    · have hc : clog2 ([x].length + 1) = 1 := rfl
      rw [hc]
      simp only [logComp, List.length_append, List.length_cons, List.length_nil]
      omega
  | x :: y :: t =>
    show (if item ∈ x :: y :: t then ((.error .itemAlreadyInserted : Except SortError Nat), s)
      else binSearchLoop (logComp cmp) (x :: y :: t) item ((x :: y :: t).length + 1)
        0 (((x :: y :: t).length : Int) - 1) s).2.length ≤ _
    split
    · simp
    · have h := binSearchLoop_cost cmp (x :: y :: t) item ((x :: y :: t).length + 1)
        0 (((x :: y :: t).length : Int) - 1) s
      have he : ((((x :: y :: t).length : Int) - 1) + 1 - 0).toNat =
          (x :: y :: t).length := by omega
      rw [he] at h
      exact h

/-! ## C2: evolution of the chain under one insertion -/

theorem splice_length (l : List α) (i : Nat) (x : α) :
    (splice l i x).length = l.length + 1 :=
  (splice_perm l i x).length_eq

theorem clearSmaller_length [DecidableEq α] (chain : List (SortingPair α)) (x : α) :
    (clearSmaller chain x).length = chain.length :=
  List.length_map _ _

theorem findIdx_le_of_getElem (q : α → Bool) (l : List α) (j : Nat)
    (hj : j < l.length) (hq : q l[j] = true) : l.findIdx q ≤ j := by
  induction l generalizing j with
  | nil => simp at hj
  | cons a t ih =>
    rw [List.findIdx_cons]
    cases hqa : q a with
    | true => simp
    | false =>
      simp only [cond_false]
      cases j with
      | zero =>
        rw [List.getElem_cons_zero] at hq
        rw [hqa] at hq
        exact absurd hq (by simp)
      | succ j0 =>
        rw [List.getElem_cons_succ] at hq
        have := ih j0 (by simpa using hj) hq
        omega

theorem findIdx_cons_cons_le (q : β → Bool) (A B : β) (L : List β) (j : Nat)
    (hj : j < L.length) (hq : q L[j] = true) :
    (A :: B :: L).findIdx q ≤ 2 + j := by
  have h := findIdx_le_of_getElem q L j hj hq
  rw [List.findIdx_cons]
  cases q A with
  | true => simp
  | false =>
    simp only [cond_false]
    rw [List.findIdx_cons]
    cases q B with
    | true =>
      simp only [cond_true]
      omega
    | false =>
      simp only [cond_false]
      omega

theorem findIdx_splice_le (q : α → Bool) :
    ∀ (l : List α) (i : Nat) (v : α),
      (splice l i v).findIdx q ≤ l.findIdx q + 1
  | [], i, v => by
    have he : splice [] i v = [v] := by simp [splice]
    rw [he, List.findIdx_cons]
    cases q v <;> simp [List.findIdx]
  | a :: t, 0, v => by
    have he : splice (a :: t) 0 v = v :: a :: t := by simp [splice]
    rw [he, List.findIdx_cons]
    cases q v <;> simp
  | a :: t, i + 1, v => by
    have he : splice (a :: t) (i + 1) v = a :: splice t i v := by
      simp [splice]
    rw [he, List.findIdx_cons, List.findIdx_cons]
    cases q a with
    | true => simp
    | false =>
      simp only [cond_false]
      have := findIdx_splice_le q t i v
      omega

theorem findIdx_clearSmaller [DecidableEq α] (x X : α) :
    ∀ chain : List (SortingPair α),
      (clearSmaller chain x).findIdx (fun v => v.item == X) =
        chain.findIdx (fun v => v.item == X)
  | [] => rfl
  | p :: t => by
    have ih := findIdx_clearSmaller x X t
    show ((if p.item == x then ({ p with smaller := none } : SortingPair α)
      else p) :: clearSmaller t x).findIdx (fun v => v.item == X) = _
    rw [List.findIdx_cons, List.findIdx_cons]
    have hh : (if p.item == x then ({ p with smaller := none } : SortingPair α)
        else p).item = p.item := by
      split <;> rfl
    rw [hh, ih]

/-! ## C2: decomposition and evolution of the insertion loop -/

theorem insertLoop_append [DecidableEq α] {σ : Type v} {c : CompM α σ} :
    ∀ (g1 g2 chain : List (SortingPair α)) (s : σ),
      insertLoop c (g1 ++ g2) chain s =
        match insertLoop c g1 chain s with
        | (.ok chain2, s2) => insertLoop c g2 chain2 s2
        | (.error e, s2) => (.error e, s2)
  | [], g2, chain, s => by simp [insertLoop]
  | pair :: rest, g2, chain, s => by
    show insertLoop c (pair :: (rest ++ g2)) chain s = _
    cases hsm : pair.smaller with
    | none =>
      simp only [insertLoop, hsm]
      cases hbi : binInsertIdx c (chain.map (·.item)) pair.item s with
      | mk fst snd =>
        cases fst with
        | ok idx => exact insertLoop_append rest g2 _ snd
        | error e => rfl
    | some y =>
      simp only [insertLoop, hsm]
      cases hbi : binInsertIdx c
          ((chain.take (chain.findIdx fun v => v.item == pair.item)).map (·.item))
          y s with
      | mk fst snd =>
        cases fst with
        | ok idx => exact insertLoop_append rest g2 _ snd
        | error e => rfl

theorem insertLoop_evolution [DecidableEq α] {σ : Type v} {c : CompM α σ} :
    ∀ (groups chain : List (SortingPair α)) (s : σ)
      (res : List (SortingPair α)) (s2 : σ),
      insertLoop c groups chain s = (.ok res, s2) →
      res.length = chain.length + groups.length ∧
      ∀ X : α, res.findIdx (fun v => v.item == X) ≤
        chain.findIdx (fun v => v.item == X) + groups.length
  | [], chain, s, res, s2, h => by
    simp only [insertLoop] at h
    have hr : (Except.ok chain : Except SortError (List (SortingPair α))) = .ok res :=
      congrArg Prod.fst h
    have hres : chain = res := by injection hr
    subst hres
    exact ⟨by simp, fun X => by simp⟩
  | pair :: rest, chain, s, res, s2, h => by
    cases hsm : pair.smaller with
    | none =>
      simp only [insertLoop, hsm] at h
      cases hbi : binInsertIdx c (chain.map (·.item)) pair.item s with
      | mk fst snd =>
        rw [hbi] at h
        cases fst with
        | error e => simp at h
        | ok idx =>
          have ih := insertLoop_evolution rest _ snd res s2 h
          refine ⟨?_, ?_⟩
          · rw [ih.1, clearSmaller_length, splice_length]
            simp only [List.length_cons]
            omega
          · intro X
            have h2 := ih.2 X
            have h3 : (clearSmaller (splice chain idx ⟨pair.item, none⟩)
                pair.item).findIdx (fun v => v.item == X) ≤
                chain.findIdx (fun v => v.item == X) + 1 := by
              rw [findIdx_clearSmaller]
              exact findIdx_splice_le _ chain idx _
            simp only [List.length_cons]
            omega
    | some y =>
      simp only [insertLoop, hsm] at h
      cases hbi : binInsertIdx c
          ((chain.take (chain.findIdx fun v => v.item == pair.item)).map (·.item))
          y s with
      | mk fst snd =>
        rw [hbi] at h
        cases fst with
        | error e => simp at h
        | ok idx =>
          have ih := insertLoop_evolution rest _ snd res s2 h
          refine ⟨?_, ?_⟩
          · rw [ih.1, clearSmaller_length, splice_length]
            simp only [List.length_cons]
            omega
          · intro X
            have h2 := ih.2 X
            have h3 : (clearSmaller (splice chain idx ⟨y, none⟩)
                pair.item).findIdx (fun v => v.item == X) ≤
                chain.findIdx (fun v => v.item == X) + 1 := by
              rw [findIdx_clearSmaller]
              exact findIdx_splice_le _ chain idx _
            simp only [List.length_cons]
            omega

/-! ## C2: cost of the insertion loop under a uniform cap -/

theorem insertLoop_cost [DecidableEq α] (cmp : α → α → Bool) :
    ∀ (groups chain : List (SortingPair α)) (s : List (α × α)) (cap : Nat),
      (∀ (p : Nat) (hp : p < groups.length),
        (∀ y, groups[p].smaller = some y →
          chain.findIdx (fun v => v.item == groups[p].item) + p ≤ cap) ∧
        (groups[p].smaller = none → chain.length + p ≤ cap)) →
      (insertLoop (logComp cmp) groups chain s).2.length ≤
        s.length + groups.length * clog2 (cap + 1)
  | [], chain, s, cap, H => by simp [insertLoop]
  | pair :: rest, chain, s, cap, H => by
    have H0 := H 0 (by simp)
    simp only [List.getElem_cons_zero] at H0
    have hexp : ((pair :: rest).length) * clog2 (cap + 1) =
        rest.length * clog2 (cap + 1) + clog2 (cap + 1) := by
      simp only [List.length_cons]
      ring
    rw [hexp]
    cases hsm : pair.smaller with
    | none =>
      simp only [insertLoop, hsm]
      have hlen : chain.length ≤ cap := by
        have := H0.2 hsm
        omega
      have hcost := binInsertIdx_cost cmp (chain.map (·.item)) pair.item s
      have hm : (chain.map (fun v : SortingPair α => v.item)).length =
          chain.length := List.length_map _ _
      have hmono : clog2 ((chain.map (fun v : SortingPair α => v.item)).length + 1) ≤
          clog2 (cap + 1) := clog2_mono (by omega)
      cases hbi : binInsertIdx (logComp cmp) (chain.map (·.item)) pair.item s with
      | mk fst snd =>
        rw [hbi] at hcost
        dsimp only at hcost
        cases fst with
        | error e =>
          show snd.length ≤ s.length + (rest.length * clog2 (cap + 1) + clog2 (cap + 1))
          omega
        | ok idx =>
          show (insertLoop (logComp cmp) rest
              (clearSmaller (splice chain idx ⟨pair.item, none⟩) pair.item)
              snd).2.length ≤
            s.length + (rest.length * clog2 (cap + 1) + clog2 (cap + 1))
          have Hrest : ∀ (p : Nat) (hp : p < rest.length),
              (∀ y2, rest[p].smaller = some y2 →
                (clearSmaller (splice chain idx ⟨pair.item, none⟩)
                  pair.item).findIdx (fun v => v.item == rest[p].item) + p ≤ cap) ∧
              (rest[p].smaller = none →
                (clearSmaller (splice chain idx ⟨pair.item, none⟩)
                  pair.item).length + p ≤ cap) := by
            intro p hp
            have Hp := H (p + 1) (by simp only [List.length_cons]; omega)
            simp only [List.getElem_cons_succ] at Hp
            constructor
            · intro y2 hy2
              have h1 := Hp.1 y2 hy2
              have h2 : (clearSmaller (splice chain idx ⟨pair.item, none⟩)
                  pair.item).findIdx (fun v => v.item == rest[p].item) ≤
                  chain.findIdx (fun v => v.item == rest[p].item) + 1 := by
                rw [findIdx_clearSmaller]
                exact findIdx_splice_le _ chain idx _
              omega
            · intro hy
              have h1 := Hp.2 hy
              rw [clearSmaller_length, splice_length]
              omega
          have ih := insertLoop_cost cmp rest
            (clearSmaller (splice chain idx ⟨pair.item, none⟩) pair.item) snd cap Hrest
          omega
    | some y =>
      simp only [insertLoop, hsm]
      have hfi : chain.findIdx (fun v => v.item == pair.item) ≤ cap := by
        have := H0.1 y hsm
        omega
      have hcost := binInsertIdx_cost cmp
        ((chain.take (chain.findIdx fun v => v.item == pair.item)).map (·.item)) y s
      have hm : (((chain.take (chain.findIdx fun v => v.item == pair.item)).map
          (fun v : SortingPair α => v.item)).length) ≤
          chain.findIdx (fun v => v.item == pair.item) := by
        rw [List.length_map, List.length_take]
        omega
      have hmono : clog2 (((chain.take (chain.findIdx fun v => v.item ==
          pair.item)).map (fun v : SortingPair α => v.item)).length + 1) ≤
          clog2 (cap + 1) := clog2_mono (by omega)
      cases hbi : binInsertIdx (logComp cmp)
          ((chain.take (chain.findIdx fun v => v.item == pair.item)).map (·.item))
          y s with
      | mk fst snd =>
        rw [hbi] at hcost
        dsimp only at hcost
        cases fst with
        | error e =>
          show snd.length ≤ s.length + (rest.length * clog2 (cap + 1) + clog2 (cap + 1))
          omega
        | ok idx =>
          show (insertLoop (logComp cmp) rest
              (clearSmaller (splice chain idx ⟨y, none⟩) pair.item) snd).2.length ≤
            s.length + (rest.length * clog2 (cap + 1) + clog2 (cap + 1))
          have Hrest : ∀ (p : Nat) (hp : p < rest.length),
              (∀ y2, rest[p].smaller = some y2 →
                (clearSmaller (splice chain idx ⟨y, none⟩)
                  pair.item).findIdx (fun v => v.item == rest[p].item) + p ≤ cap) ∧
              (rest[p].smaller = none →
                (clearSmaller (splice chain idx ⟨y, none⟩)
                  pair.item).length + p ≤ cap) := by
            intro p hp
            have Hp := H (p + 1) (by simp only [List.length_cons]; omega)
            simp only [List.getElem_cons_succ] at Hp
            constructor
            · intro y2 hy2
              have h1 := Hp.1 y2 hy2
              have h2 : (clearSmaller (splice chain idx ⟨y, none⟩)
                  pair.item).findIdx (fun v => v.item == rest[p].item) ≤
                  chain.findIdx (fun v => v.item == rest[p].item) + 1 := by
                rw [findIdx_clearSmaller]
                exact findIdx_splice_le _ chain idx _
              omega
            · intro hy
              have h1 := Hp.2 hy
              rw [clearSmaller_length, splice_length]
              omega
          have ih := insertLoop_cost cmp rest
            (clearSmaller (splice chain idx ⟨y, none⟩) pair.item) snd cap Hrest
          omega

/-! ## C2: cost of the insertion loop over the group schedule -/

theorem insertLoop_chunks_cost [DecidableEq α] (cmp : α → α → Bool)
    (tl : List (SortingPair α)) (c0 : Nat)
    (hleft : ∀ (tg : Nat) (h : tg < tl.length), tl[tg].smaller = none →
      tg + 1 = tl.length ∧ c0 ≤ tl.length + 1) :
    ∀ (fuel k i : Nat) (chain : List (SortingPair α)) (s : List (α × α)),
      1 ≤ k → i = groupSizeSum (k - 1) →
      chain.length = c0 + i →
      (∀ (tg : Nat) (h : tg < tl.length), i ≤ tg →
        chain.findIdx (fun v => v.item == tl[tg].item) ≤ 2 + tg + i) →
      (insertLoop (logComp cmp)
          ((makeGroupsAux fuel k i tl.enum).map Prod.snd) chain s).2.length ≤
        s.length + insertBudgetFrom (tl.length - i) i := by
  intro fuel
  induction fuel with
  | zero =>
    intro k i chain s hk hi hlen Hs
    simp [makeGroupsAux, insertLoop]
  | succ f ih =>
    intro k i chain s hk hi hlen Hs
    obtain ⟨kk, rfl⟩ : ∃ kk, k = kk + 1 := ⟨k - 1, by omega⟩
    have hi2 : i = groupSizeSum kk := by simpa using hi
    simp only [makeGroupsAux]
    set base := (tl.enum.drop i).take (groupSize (kk + 1)) with hbase
    have hblen : base.length = min (groupSize (kk + 1)) (tl.length - i) := by
      rw [hbase, List.length_take, List.length_drop, List.enum_length]
    have hsize2 : 2 ≤ groupSize (kk + 1) := (groupSize_bounds kk).1
    have hsizeub : groupSize (kk + 1) ≤ 2 ^ (kk + 1) := (groupSize_bounds kk).2
    have htk : groupSizeSum (kk + 1) = groupSizeSum kk + groupSize (kk + 1) := rfl
    have hpair := groupSizeSum_pair kk
    have hmaplen : (base.reverse.map Prod.snd).length = base.length := by
      rw [List.length_map, List.length_reverse]
    have H : ∀ (p : Nat) (hp : p < (base.reverse.map Prod.snd).length),
        (∀ y, (base.reverse.map Prod.snd)[p].smaller = some y →
          chain.findIdx
            (fun v => v.item == (base.reverse.map Prod.snd)[p].item) + p ≤
            2 * i + base.length + 1) ∧
        ((base.reverse.map Prod.snd)[p].smaller = none →
          chain.length + p ≤ 2 * i + base.length + 1) := by
      intro p hp
      have hp2 : p < base.length := by omega
      have hj : base.length - 1 - p < base.length := by omega
      have hjlen : i + (base.length - 1 - p) < tl.length := by omega
      have hgp : (base.reverse.map Prod.snd)[p] = tl[i + (base.length - 1 - p)] := by
        rw [List.getElem_map, List.getElem_reverse, List.getElem_take,
          List.getElem_drop, List.getElem_enum]
      constructor
      · intro y hy
        rw [hgp]
        have h1 := Hs (i + (base.length - 1 - p)) hjlen (by omega)
        omega
      · intro hy
        rw [hgp] at hy
        obtain ⟨h1, h2⟩ := hleft (i + (base.length - 1 - p)) hjlen hy
        omega
    have hcost1 := insertLoop_cost cmp (base.reverse.map Prod.snd) chain s
      (2 * i + base.length + 1) H
    rw [hmaplen] at hcost1
    have hcap : clog2 (2 * i + base.length + 1 + 1) ≤ kk + 2 := by
      rw [clog2_le_iff _ _ (by omega)]
      omega
    have hgrp : ∀ j, i ≤ j → j < i + base.length → groupOf j = kk + 1 := by
      intro j h1 h2
      apply groupOf_eq j (kk + 1) (by omega)
      · simpa using hi2 ▸ h1
      · omega
    split
    · next hshort =>
      have hbl2 : base.length = tl.length - i := by
        rw [List.length_reverse] at hshort
        omega
      have hbud : insertBudgetFrom (tl.length - i) i = (tl.length - i) * (kk + 2) := by
        apply insertBudgetFrom_const
        intro j h1 h2
        exact hgrp j h1 (by omega)
      rw [hbud]
      rw [hbl2] at hcost1 hcap
      have hmul := Nat.mul_le_mul (le_refl (tl.length - i)) hcap
      omega
    · next hfull =>
      have hbl2 : base.length = groupSize (kk + 1) := by
        rw [List.length_reverse] at hfull
        omega
      have hrem : tl.length - i =
          groupSize (kk + 1) + (tl.length - i - groupSize (kk + 1)) := by
        rw [List.length_reverse] at hfull
        omega
      have hsplit := insertBudgetFrom_split (groupSize (kk + 1))
        (tl.length - i - groupSize (kk + 1)) i
      rw [← hrem] at hsplit
      have hbud1 : insertBudgetFrom (groupSize (kk + 1)) i =
          groupSize (kk + 1) * (kk + 2) := by
        apply insertBudgetFrom_const
        intro j h1 h2
        exact hgrp j h1 (by omega)
      rw [List.map_append, insertLoop_append]
      cases hrun : insertLoop (logComp cmp) (base.reverse.map Prod.snd) chain s with
      | mk fst s2 =>
        rw [hrun] at hcost1
        dsimp only at hcost1
        rw [hbl2] at hcost1 hcap
        have hchunkmul := Nat.mul_le_mul (le_refl (groupSize (kk + 1))) hcap
        cases fst with
        | error e =>
          show s2.length ≤ s.length + insertBudgetFrom (tl.length - i) i
          omega
        | ok chain2 =>
          show (insertLoop (logComp cmp)
              ((makeGroupsAux f (kk + 1 + 1) (i + groupSize (kk + 1))
                tl.enum).map Prod.snd) chain2 s2).2.length ≤
            s.length + insertBudgetFrom (tl.length - i) i
          obtain ⟨hev1, hev2⟩ := insertLoop_evolution _ chain s chain2 s2 hrun
          have hrec := ih (kk + 1 + 1) (i + groupSize (kk + 1)) chain2 s2
            (by omega) (by simpa using htk ▸ hi2 ▸ rfl) ?_ ?_
          · have he : tl.length - (i + groupSize (kk + 1)) =
                tl.length - i - groupSize (kk + 1) := by omega
            rw [he] at hrec
            omega
          · rw [hev1, hmaplen, hbl2, hlen]
            omega
          · intro tg h htg
            have h2 := hev2 tl[tg].item
            have h3 := Hs tg h (by omega)
            rw [hmaplen, hbl2] at h2
            omega

/-! ## C2: total cost of the sort -/

theorem buildPairs_cost (cmp : α → α → Bool) :
    ∀ (arr : List α) (s : List (α × α)),
      (buildPairs (logComp cmp) arr s).2.length = s.length + arr.length / 2
  | [], s => by simp [buildPairs]
  | [a], s => by simp [buildPairs]
  | a :: b :: rest, s => by
    show (buildPairs (logComp cmp) rest ((logComp cmp).query a b s).2).2.length = _
    rw [buildPairs_cost cmp rest]
    simp only [logComp, List.length_append, List.length_cons, List.length_nil]
    omega

theorem sortFJ_cost [DecidableEq α] (cmp : α → α → Bool) :
    ∀ (fuel : Nat) (arr : List α) (s : List (α × α)), arr.length < fuel →
      (sortFJ (logComp cmp) fuel arr s).2.length ≤ s.length + compSum arr.length
  | 0, arr, _, hf => absurd hf (by omega)
  | _ + 1, [], s, _ => by simp [sortFJ, compSum]
  | _ + 1, [a], s, _ => by
    show s.length ≤ s.length + compSum 1
    omega
  | fuel + 1, a :: b :: [], s, _ => by
    simp only [sortFJ]
    split
    · show s.length ≤ s.length + compSum ([a, b] : List α).length
      omega
    · show ((logComp cmp).query a b s).2.length ≤
        s.length + compSum ([a, b] : List α).length
      have hc : compSum ([a, b] : List α).length = 1 := by
        show compSum 2 = 1
        decide
      rw [hc]
      simp only [logComp, List.length_append, List.length_cons, List.length_nil]
      omega
  | fuel + 1, a :: b :: rr :: rest', s, hf => by
    have hn3 : 3 ≤ (a :: b :: rr :: rest').length := by
      simp only [List.length_cons]
      omega
    have hkey := key_budget (a :: b :: rr :: rest').length hn3
    simp only [sortFJ]
    split
    · show s.length ≤ s.length + compSum (a :: b :: rr :: rest').length
      omega
    · next hdedup =>
      have hnd : (a :: b :: rr :: rest').Nodup :=
        (nodup_iff_dedup_length _).mpr (not_ne_iff.mp hdedup).symm
      set bp := buildPairs (logComp cmp) (a :: b :: rr :: rest') s with hbp
      have hbplen : bp.2.length = s.length + (a :: b :: rr :: rest').length / 2 :=
        buildPairs_cost cmp _ s
      have hprs : bp.1.length = (a :: b :: rr :: rest').length / 2 :=
        buildPairs_length _ _
      have hkeysnd : (bp.1.map Prod.fst).Nodup := by
        have htake := (List.take_sublist
          (2 * ((a :: b :: rr :: rest').length / 2)) (a :: b :: rr :: rest')).nodup hnd
        have h2 := (buildPairs_flat_perm (c := logComp cmp)
          (a :: b :: rr :: rest') s).nodup_iff.mpr htake
        exact h2.of_append_left
      have hfuelrec : (bp.1.map Prod.fst).length < fuel := by
        rw [List.length_map, hprs]
        simp only [List.length_cons] at hf ⊢
        omega
      cases hrec : sortFJ (logComp cmp) fuel (bp.1.map Prod.fst) bp.2 with
      | mk fst s2 =>
        have hcost2 := sortFJ_cost cmp fuel (bp.1.map Prod.fst) bp.2 hfuelrec
        rw [hrec] at hcost2
        dsimp only at hcost2
        rw [List.length_map, hprs] at hcost2
        cases fst with
        | error e =>
          show s2.length ≤ s.length + compSum (a :: b :: rr :: rest').length
          omega
        | ok larger =>
          obtain ⟨res2, s2b, hrun2, hperm2⟩ := sortFJ_perm (c := logComp cmp) fuel
            (bp.1.map Prod.fst) bp.2 hfuelrec hkeysnd
          rw [hrec] at hrun2
          have hok : (Except.ok larger : Except SortError (List α)) = .ok res2 :=
            congrArg Prod.fst hrun2
          have hres : larger = res2 := by injection hok
          subst hres
          have hperm : larger.Perm (bp.1.map Prod.fst) := hperm2
          have hllen : larger.length = (a :: b :: rr :: rest').length / 2 := by
            rw [hperm.length_eq, List.length_map, hprs]
          have hlksome : ∀ x ∈ larger, (bp.1.lookup x).isSome := by
            intro x hx
            exact lookup_isSome_of_mem_keys bp.1 x (hperm.subset hx)
          cases larger with
          | nil =>
            simp only [List.length_nil, List.length_cons] at hllen
            simp only [List.length_cons] at hf
            omega
          | cons L0 Ltail =>
            simp only [List.map_cons]
            cases hlk : bp.1.lookup L0 with
            | none =>
              have := hlksome L0 (by simp)
              rw [hlk] at this
              simp at this
            | some y1 =>
              simp only [List.length_cons] at hllen
              simp only [List.drop_succ_cons, List.drop_zero]
              rcases Nat.mod_two_eq_zero_or_one (a :: b :: rr :: rest').length
                with hpar | hpar
              · -- even length: no leftover
                rw [if_neg (by omega)]
                have hchunks := insertLoop_chunks_cost cmp
                  (Ltail.map fun l => (⟨l, bp.1.lookup l⟩ : SortingPair α))
                  (Ltail.length + 2) ?hleft
                  ((Ltail.map fun l =>
                    (⟨l, bp.1.lookup l⟩ : SortingPair α)).length + 1) 1 0
                  (⟨y1, none⟩ :: ⟨L0, none⟩ ::
                    (Ltail.map fun l => (⟨l, bp.1.lookup l⟩ : SortingPair α)))
                  s2 (by omega) (by simp [groupSizeSum]) ?hclen ?hfind
                case hleft =>
                  intro tg h hnone
                  exfalso
                  have htg3 : tg < Ltail.length := by simpa using h
                  rw [List.getElem_map] at hnone
                  dsimp only at hnone
                  have hm := hlksome Ltail[tg]
                    (List.mem_cons_of_mem _ (List.getElem_mem _))
                  rw [hnone] at hm
                  simp at hm
                case hclen =>
                  simp only [List.length_cons, List.length_map]
                case hfind =>
                  intro tg h htg
                  exact findIdx_cons_cons_le _ _ _ _ tg h (by simp)
                have hmg : makeGroups (Ltail.map fun l =>
                    (⟨l, bp.1.lookup l⟩ : SortingPair α)) =
                    makeGroupsAux ((Ltail.map fun l =>
                      (⟨l, bp.1.lookup l⟩ : SortingPair α)).length + 1) 1 0
                      (Ltail.map fun l =>
                        (⟨l, bp.1.lookup l⟩ : SortingPair α)).enum := rfl
                rw [← hmg] at hchunks
                have harg : (Ltail.map fun l =>
                    (⟨l, bp.1.lookup l⟩ : SortingPair α)).length - 0 =
                    (a :: b :: rr :: rest').length -
                      (a :: b :: rr :: rest').length / 2 - 1 := by
                  rw [List.length_map]
                  simp only [List.length_cons] at hllen hpar ⊢
                  omega
                rw [harg] at hchunks
                have hib : insertBudgetFrom ((a :: b :: rr :: rest').length -
                    (a :: b :: rr :: rest').length / 2 - 1) 0 =
                    insertBudget ((a :: b :: rr :: rest').length -
                      (a :: b :: rr :: rest').length / 2 - 1) := rfl
                rw [hib] at hchunks
                split
                · next chainF s3 heq =>
                  rw [heq] at hchunks
                  dsimp only at hchunks
                  show s3.length ≤ s.length + compSum (a :: b :: rr :: rest').length
                  omega
                · next e s3 heq =>
                  rw [heq] at hchunks
                  dsimp only at hchunks
                  show s3.length ≤ s.length + compSum (a :: b :: rr :: rest').length
                  omega
              · -- odd length: trailing leftover item
                rw [if_pos hpar]
                have hchunks := insertLoop_chunks_cost cmp
                  ((Ltail.map fun l => (⟨l, bp.1.lookup l⟩ : SortingPair α)) ++
                    [(⟨(a :: b :: rr :: rest').getLastD a, none⟩ : SortingPair α)])
                  (Ltail.length + 2) ?hleft
                  (((Ltail.map fun l => (⟨l, bp.1.lookup l⟩ : SortingPair α)) ++
                    [(⟨(a :: b :: rr :: rest').getLastD a, none⟩ : SortingPair α)]).length + 1) 1 0
                  (⟨y1, none⟩ :: ⟨L0, none⟩ ::
                    (Ltail.map fun l => (⟨l, bp.1.lookup l⟩ : SortingPair α)))
                  s2 (by omega) (by simp [groupSizeSum]) ?hclen ?hfind
                case hleft =>
                  intro tg h hnone
                  by_cases htg : tg < Ltail.length
                  · exfalso
                    have htg3 : tg < Ltail.length := htg
                    rw [List.getElem_append_left (by simpa using htg)] at hnone
                    rw [List.getElem_map] at hnone
                    dsimp only at hnone
                    have hm := hlksome Ltail[tg]
                      (List.mem_cons_of_mem _ (List.getElem_mem _))
                    rw [hnone] at hm
                    simp at hm
                  · constructor
                    · simp only [List.length_append, List.length_map,
                        List.length_cons, List.length_nil] at h ⊢
                      omega
                    · simp only [List.length_append, List.length_map,
                        List.length_cons, List.length_nil]
                      omega
                case hclen =>
                  simp only [List.length_cons, List.length_map]
                case hfind =>
                  intro tg h htg
                  by_cases htg2 : tg < Ltail.length
                  · have htm : tg < (Ltail.map fun l =>
                        (⟨l, bp.1.lookup l⟩ : SortingPair α)).length := by
                      simpa using htg2
                    have hgete : ((Ltail.map fun l =>
                        (⟨l, bp.1.lookup l⟩ : SortingPair α)) ++
                        [(⟨(a :: b :: rr :: rest').getLastD a, none⟩ : SortingPair α)])[tg] =
                        (Ltail.map fun l => (⟨l, bp.1.lookup l⟩ : SortingPair α))[tg] :=
                      List.getElem_append_left htm
                    rw [hgete]
                    exact findIdx_cons_cons_le _ _ _ _ tg htm (by simp)
                  · have hfl := @List.findIdx_le_length _
                      (fun v : SortingPair α => v.item ==
                        (((Ltail.map fun l => (⟨l, bp.1.lookup l⟩ : SortingPair α)) ++
                          [(⟨(a :: b :: rr :: rest').getLastD a, none⟩ : SortingPair α)])[tg]).item)
                      (⟨y1, none⟩ :: ⟨L0, none⟩ ::
                        (Ltail.map fun l => (⟨l, bp.1.lookup l⟩ : SortingPair α)))
                    simp only [List.length_cons, List.length_map] at hfl
                    simp only [List.length_append, List.length_map,
                      List.length_cons, List.length_nil] at h
                    omega
                have hmg : makeGroups ((Ltail.map fun l =>
                    (⟨l, bp.1.lookup l⟩ : SortingPair α)) ++
                    [(⟨(a :: b :: rr :: rest').getLastD a, none⟩ : SortingPair α)]) =
                    makeGroupsAux (((Ltail.map fun l =>
                      (⟨l, bp.1.lookup l⟩ : SortingPair α)) ++
                      [(⟨(a :: b :: rr :: rest').getLastD a, none⟩ : SortingPair α)]).length + 1) 1 0
                      ((Ltail.map fun l =>
                        (⟨l, bp.1.lookup l⟩ : SortingPair α)) ++
                        [(⟨(a :: b :: rr :: rest').getLastD a, none⟩ : SortingPair α)]).enum := rfl
                rw [← hmg] at hchunks
                have harg : ((Ltail.map fun l =>
                    (⟨l, bp.1.lookup l⟩ : SortingPair α)) ++
                    [(⟨(a :: b :: rr :: rest').getLastD a, none⟩ : SortingPair α)]).length - 0 =
                    (a :: b :: rr :: rest').length -
                      (a :: b :: rr :: rest').length / 2 - 1 := by
                  simp only [List.length_append, List.length_map, List.length_cons,
                    List.length_nil]
                  simp only [List.length_cons] at hllen hpar ⊢
                  omega
                rw [harg] at hchunks
                have hib : insertBudgetFrom ((a :: b :: rr :: rest').length -
                    (a :: b :: rr :: rest').length / 2 - 1) 0 =
                    insertBudget ((a :: b :: rr :: rest').length -
                      (a :: b :: rr :: rest').length / 2 - 1) := rfl
                rw [hib] at hchunks
                split
                · next chainF s3 heq =>
                  rw [heq] at hchunks
                  dsimp only at hchunks
                  show s3.length ≤ s.length + compSum (a :: b :: rr :: rest').length
                  omega
                · next e s3 heq =>
                  rw [heq] at hchunks
                  dsimp only at hchunks
                  show s3.length ≤ s.length + compSum (a :: b :: rr :: rest').length
                  omega

/-- C2: in any run of the current revision's sort — any input, any
comparator behaviour — the number of distinct unordered pairs among the
logged comparator invocations is at most the value of
`mergeInsertionMaxComparisons` at the input length (which always
succeeds on a length).  With a comparator derived from a total order on
pairwise-distinct items this specialises to the claimed bound. -/
theorem sort_comparison_bound [DecidableEq α] (cmp : α → α → Bool) (arr : List α) :
    ∃ b : Int, mergeInsertionMaxComparisons (arr.length : Int) = .ok b ∧
      ((countDistinctUnord ((mergeInsertionSort (logComp cmp) arr []).2) : Int) ≤ b) := by
  cases arr with
  | nil =>
    refine ⟨0, rfl, ?_⟩
    show ((countDistinctUnord ((mergeInsertionSort (logComp cmp) [] []).2) : Int)) ≤ 0
    simp [mergeInsertionSort, sortFJ, countDistinctUnord]
  | cons a0 arest =>
    have hm1 : 1 ≤ (a0 :: arest).length := by simp
    refine ⟨maxCompClosed (a0 :: arest).length, ?_, ?_⟩
    · exact maxComparisons_nat (a0 :: arest).length hm1
    · have h1 := countDistinctUnord_le_length
        ((mergeInsertionSort (logComp cmp) (a0 :: arest) []).2)
      have h2 : ((mergeInsertionSort (logComp cmp) (a0 :: arest) []).2).length ≤
          compSum (a0 :: arest).length := by
        have h := sortFJ_cost cmp ((a0 :: arest).length + 1) (a0 :: arest) []
          (by omega)
        simpa [mergeInsertionSort] using h
      have h3 : (compSum (a0 :: arest).length : Int) =
          maxCompClosed (a0 :: arest).length :=
        compSum_eq_closed _ hm1
      rw [← h3]
      exact_mod_cast le_trans h1 h2

end MergeInsertion
